import Mathlib

/-!
# vulcan-snyk: grouping and normalisation of Snyk findings

A shallow embedding of `cmd/vulcan-snyk/main.go`: the grouping loop of the
`run` closure, the construction of one report record per group,
`createDetails`, and the two text extractors.

Go strings are modelled by `String`; Go maps by association lists with unique
keys kept in insertion order (Go leaves the iteration order unspecified, so
statements about emitted records are about membership and counts, or are
stated for the map itself).  Go `int` is taken to be 64 bits wide.  The calls
to `logger` have no effect on any returned value and are left out.
-/

namespace VulcanSnyk

/-! ## Data model -/

/-- Modelled from the spec: the element type of `SnykVulnerability.References`,
declared outside `main.go`; only the field `URL` is read. -/
structure SnykReference where
  URL : String
  deriving DecidableEq, Repr

/-- Modelled from the spec: the type `SnykVulnerability` is declared outside
`main.go`; the fields are those `main.go` reads (`Type_` is the Go field
`Type`, a reserved word here).  `CWE` stands for
`Identifiers.CWE`, and `CVSSScore` carries the bit pattern of the floating
point score, which the code only copies. -/
structure SnykVulnerability where
  ID : String
  Type_ : String
  PackageName : String
  Title : String
  Description : String
  CVSSScore : Nat
  CWE : List String
  References : List SnykReference
  From : List String
  deriving DecidableEq, Repr

/-- The fields of `report.Vulnerability` that `main.go` assigns.  `CWEID` is a
`uint32` whose zero value stands for an absent identifier; `Score` is the bit
pattern copied from `CVSSScore`. -/
structure Vulnerability where
  Summary : String
  Description : String
  Details : String
  Score : Nat
  Recommendations : List String
  CWEID : Nat
  References : List String
  deriving DecidableEq, Repr

/-! ## Go maps with string keys -/

/-- A Go `map[string]V`: entries with pairwise distinct keys. -/
abbrev GoMap (V : Type) := List (String × V)

namespace GoMap

variable {V : Type}

/-- The keys of a map. -/
def keys (m : GoMap V) : List String := m.map Prod.fst

/-- The comma-ok read `v, ok := m[k]`. -/
def get? : GoMap V → String → Option V
  | [], _ => none
  | (k', v) :: t, k => if k' = k then some v else get? t k

/-- The plain read `m[k]`, which yields the zero value `d` of `V` for an absent key. -/
def getD (m : GoMap V) (k : String) (d : V) : V := (m.get? k).getD d

/-- The assignment `m[k] = v`: overwrite the entry of `k`, or add one. -/
def set : GoMap V → String → V → GoMap V
  | [], k, v => [(k, v)]
  | (k', v') :: t, k, v => if k' = k then (k, v) :: t else (k', v') :: set t k v

end GoMap

/-! ## Grouping (lines 58-71) -/

/-- The type of `snykVulnerabilitiesMap`. -/
abbrev GroupMap := GoMap (GoMap (List SnykVulnerability))

/-- Lines 65-68: create the inner map on first sight of an id. -/
def ensureID (m : GroupMap) (id : String) : GroupMap :=
  match m.get? id with
  | some _ => m
  | none => m.set id []

/-- One iteration of the loop of lines 60-71.  After `ensureID` the inner map
exists, so the write of line 70 never hits a nil map. -/
def groupStep (m : GroupMap) (v : SnykVulnerability) : GroupMap :=
  if v.Type_ = "license" then m
  else
    let m1 := ensureID m v.ID
    let inner := m1.getD v.ID []
    m1.set v.ID (inner.set v.PackageName (inner.getD v.PackageName [] ++ [v]))

/-- Lines 59-71: the map built from the findings of the response. -/
def groupVulnerabilities (vs : List SnykVulnerability) : GroupMap :=
  vs.foldl groupStep []

/-- The group stored under `(id, packageName)`: `m[id][packageName]`, nil when absent. -/
def groupAt (m : GroupMap) (id pkg : String) : List SnykVulnerability :=
  (m.getD id []).getD pkg []

/-- All `(id, packageName)` pairs of the nested map, in iteration order. -/
def groupKeys (m : GroupMap) : List (String × String) :=
  m.flatMap fun e => e.2.map fun f => (e.1, f.1)

/-- All groups of the nested map with their module names, in iteration order
(the two nested `range` loops of lines 75-76). -/
def groupList (m : GroupMap) : List (String × List SnykVulnerability) :=
  m.flatMap fun e => e.2

/-- The number of groups held by the nested map. -/
def groupCount (m : GroupMap) : Nat := (groupList m).length

/-- A finding that the filter of line 61 lets through. -/
def notLicense (v : SnykVulnerability) : Bool := decide (v.Type_ ≠ "license")

/-- A finding that passes the filter and has the given key. -/
def inGroup (id pkg : String) (v : SnykVulnerability) : Bool :=
  notLicense v && decide (v.ID = id) && decide (v.PackageName = pkg)

/-! ## `createDetails` (lines 116-130) -/

/-- The body of the outer loop of `createDetails` up to line 126: the string
`str` built for one finding.  `n` is a signed `int`, so `n-2` is negative for
paths shorter than two elements and the comparison of line 123 is then false. -/
def detailsStr (vulnerability : SnykVulnerability) : String :=
  let n : Int := vulnerability.From.length
  (List.range vulnerability.From.length).foldl
    (fun str i =>
      let str := str ++ vulnerability.From.getD i ""
      if (i : Int) < n - 2 then str ++ " > " else str)
    "Introduced through: "

/-- The function `createDetails`. -/
def createDetails (vulnerabilities : List SnykVulnerability) : String :=
  vulnerabilities.foldl (fun res vulnerability => res ++ detailsStr vulnerability ++ "\n") ""

/-- The number of newline characters of a string. -/
def newlineCount (s : String) : Nat := s.data.count '\n'

/-! ## Library functions of the Go standard library -/

/-- The scan of `strings.ReplaceAll` for a non-empty `old`: `skip` counts the
characters of a match that are still to be passed over. -/
def replaceGo (old new : List Char) : Nat → List Char → List Char
  | _, [] => []
  | skip + 1, _ :: t => replaceGo old new skip t
  | 0, c :: t =>
    if old.isPrefixOf (c :: t) then new ++ replaceGo old new (old.length - 1) t
    else c :: replaceGo old new 0 t

/-- The library function `strings.ReplaceAll(s, old, new)`: every
non-overlapping occurrence of `old`, found from the left, is replaced by `new`;
for an empty `old` the replacement goes before every character and at the end. -/
def replaceAll (s old new : String) : String :=
  if old.data = [] then ⟨new.data ++ s.data.flatMap fun c => c :: new.data⟩
  else ⟨replaceGo old.data new.data 0 s.data⟩

/-- The value of a string of decimal digits. -/
def digitsValue (ds : List Char) : Nat :=
  ds.foldl (fun n c => 10 * n + (c.toNat - '0'.toNat)) 0

/-- The library function `strconv.Atoi` for a 64-bit `int`: an optional sign,
then one or more decimal digits, the value within the range of `int`; `none`
stands for a non-nil error. -/
def atoi (s : String) : Option Int :=
  let sd : Bool × List Char :=
    match s.data with
    | '-' :: t => (true, t)
    | '+' :: t => (false, t)
    | l => (false, l)
  if sd.2 = [] ∨ sd.2.all Char.isDigit = false then none
  else if sd.1 then
    (if digitsValue sd.2 ≤ 2 ^ 63 then some (-(digitsValue sd.2 : Int)) else none)
  else
    (if digitsValue sd.2 < 2 ^ 63 then some (digitsValue sd.2 : Int) else none)

/-- The conversion `uint32(x)` of a signed integer. -/
def toUint32 (x : Int) : Nat := (x % 2 ^ 32).toNat

/-- The library function `strings.Split(s, "\n")` on the characters of `s`. -/
def splitNewline : List Char → List (List Char)
  | [] => [[]]
  | c :: t =>
    if c = '\n' then [] :: splitNewline t
    else
      match splitNewline t with
      | h :: r => (c :: h) :: r
      | [] => [[c]]

/-- The library function `strings.Trim(s, "\n")` on the characters of `s`. -/
def trimNewline (s : List Char) : List Char :=
  ((s.dropWhile (· = '\n')).reverse.dropWhile (· = '\n')).reverse

/-! ## Regular expressions of `main.go` -/

/-- The pieces the patterns of `main.go` are made of: a literal character
(matched without regard to case, all patterns carry the flag i) and a greedy
repetition of any character but the newline. -/
inductive ReItem where
  | lit (c : Char)
  | dotStar
  deriving DecidableEq, Repr

/-- Case-insensitive equality of characters.  The letters of the patterns used
here have no case variants outside ASCII. -/
def foldEq (c d : Char) : Bool := c.toLower == d.toLower

/-- The greedy repetition: take as many characters of the line as the
continuation `k` allows, longest first. -/
def reStar (k : List Char → Option Nat) : List Char → Option Nat
  | [] => k []
  | d :: t =>
    if d = '\n' then k (d :: t)
    else
      match reStar k t with
      | some n => some (n + 1)
      | none => k (d :: t)

/-- The length of the match of a pattern at the start of the text that a
backtracking matcher finds first (the leftmost-first rule of package `regexp`). -/
def reMatch : List ReItem → List Char → Option Nat
  | [], _ => some 0
  | ReItem.lit c :: rest, s =>
    match s with
    | [] => none
    | d :: t => if foldEq c d then (reMatch rest t).map (· + 1) else none
  | ReItem.dotStar :: rest, s => reStar (reMatch rest) s

/-- The method `FindIndex`: start and end of the leftmost match, `none` for the
nil slice returned when there is no match. -/
def findIndex (re : List ReItem) : List Char → Option (Nat × Nat)
  | [] => (reMatch re []).map fun n => (0, n)
  | c :: t =>
    match reMatch re (c :: t) with
    | some n => some (0, n)
    | none => (findIndex re t).map fun loc => (loc.1 + 1, loc.2 + 1)

/-- The literal characters of a pattern. -/
def reLit (s : String) : List ReItem := s.data.map ReItem.lit

/-- The pattern of line 132. -/
def regexpRemediationTagBegin : List ReItem :=
  reLit "<h2" ++ [ReItem.dotStar] ++ reLit "id=\"remediation\"" ++ [ReItem.dotStar] ++ reLit "</h2>"

/-- The pattern of line 133. -/
def regexpRemediationTagEnd : List ReItem :=
  reLit "<h2" ++ [ReItem.dotStar] ++ reLit ">"

/-- The pattern of line 171. -/
def regexpOverviewTagBegin : List ReItem :=
  reLit "<h2" ++ [ReItem.dotStar] ++ reLit "id=\"overview\"" ++ [ReItem.dotStar] ++ reLit "</h2>"

/-- The pattern of line 175. -/
def regexpNextH2TagBegin : List ReItem := reLit "<h2"

/-! ## The sanitizer policy and the external libraries -/

/-- The state of the package-level `bluemondayParser`: the (element, attribute)
pairs the policy lets through. -/
abbrev Policy := List (String × String)

/-- The value of `bluemonday.StrictPolicy()`: nothing is let through. -/
def strictPolicy : Policy := []

/-- The call `p.AllowAttrs(attr).OnElements(el)`, which records the pair in the
policy `p` itself and returns `p`. -/
def allowAttrsOnElements (p : Policy) (attr el : String) : Policy :=
  if (el, attr) ∈ p then p else p ++ [(el, attr)]

/-- The functions of the libraries `gomarkdown` and `bluemonday`, which are not
part of the repository: `toHTML` is `markdown.ToHTML` with the parser of lines
137 and 178, `sanitize` is `Sanitize` (and `SanitizeBytes`) under a policy. -/
structure TextLib where
  toHTML : String → String
  sanitize : Policy → String → String

/-- Lines 142-144 and 181-183: the normalisation of the description. -/
def normalizeBuf (buf : String) : String :=
  replaceAll (replaceAll (replaceAll buf "\\\\r\\\\n" "\n") "\\\\n" "\n") "--|" "---|"

/-- The function `extractOverview`, with the policy it leaves behind in
`bluemondayParser`. -/
def extractOverview (L : TextLib) (p : Policy) (buf : String) : String × Policy :=
  let htmlUnsafe := L.toHTML (normalizeBuf buf)
  let p1 := allowAttrsOnElements p "id" "h2"
  let html := (L.sanitize p1 htmlUnsafe).data
  match findIndex regexpOverviewTagBegin html with
  | some locationTagOverview =>
    let html := html.drop locationTagOverview.2
    let html :=
      match findIndex regexpNextH2TagBegin html with
      | some locationTagNextH2 => html.take locationTagNextH2.1
      | none => html
    (⟨trimNewline html⟩, p1)
  | none => ("", p1)

/-- The function `extractRecommendations` under the current policy of
`bluemondayParser`. -/
def extractRecommendations (L : TextLib) (p : Policy) (buf : String) : List String :=
  let html := (L.toHTML (normalizeBuf buf)).data
  match findIndex regexpRemediationTagBegin html with
  | some locationTagRemediations =>
    let remediationSection := html.drop locationTagRemediations.2
    let remediationSection :=
      match findIndex regexpRemediationTagEnd remediationSection with
      | some locationTagRemediationsEnd => remediationSection.take locationTagRemediationsEnd.1
      | none => remediationSection
    (splitNewline remediationSection).foldl
      (fun res line =>
        if 0 < line.length then
          let aux : String := ⟨trimNewline (L.sanitize p ⟨line⟩).data⟩
          if 0 < aux.length then res ++ [aux] else res
        else res)
      []
  | none => []

/-! ## Record construction (lines 73-105) -/

/-- Lines 85-97: the value left in `CWEID`, zero when it is not assigned. -/
def cweIDOf (cwe : List String) : Nat :=
  match cwe with
  | [] => 0
  | first :: _ =>
    match atoi (replaceAll first "CWE-" "") with
    | some cweID => toUint32 cweID
    | none => 0

/-- Lines 99-101: the URLs collected from the references. -/
def referenceURLs (refs : List SnykReference) : List String :=
  refs.foldl (fun acc ref => acc ++ [ref.URL]) []

/-- Lines 77-101: the record built for one group, with the policy left behind;
`none` stands for the panic of `snykIssues[0]` on an empty group. -/
def buildVulnerability (L : TextLib) (p : Policy) (moduleName : String)
    (snykIssues : List SnykVulnerability) : Option (Vulnerability × Policy) :=
  match snykIssues with
  | [] => none
  | first :: _ =>
    let ov := extractOverview L p first.Description
    some
      ({ Summary := first.Title ++ ": " ++ moduleName
         Description := ov.1
         Details := createDetails snykIssues
         Score := first.CVSSScore
         Recommendations := extractRecommendations L ov.2 first.Description
         CWEID := cweIDOf first.CWE
         References := referenceURLs first.References }, ov.2)

/-- Lines 73-105: the records appended to `vulns` while ranging over the
groups, with the policy left behind. -/
def emitVulns (L : TextLib) : Policy → List (String × List SnykVulnerability) →
    Option (List Vulnerability × Policy)
  | p, [] => some ([], p)
  | p, (moduleName, snykIssues) :: rest =>
    match buildVulnerability L p moduleName snykIssues with
    | none => none
    | some (v, p1) =>
      match emitVulns L p1 rest with
      | none => none
      | some (vs, p2) => some (v :: vs, p2)

/-- Lines 58-107 of the `run` closure, from the collected findings
`r.Vulnerabilities` to the records handed to `state.AddVulnerabilities`, under
the policy `p` that `bluemondayParser` holds when the run starts. -/
def run (L : TextLib) (p : Policy) (vs : List SnykVulnerability) :
    Option (List Vulnerability × Policy) :=
  emitVulns L p (groupList (groupVulnerabilities vs))

/-- The records a run emits, empty when the run panics. -/
def runVulns (L : TextLib) (p : Policy) (vs : List SnykVulnerability) : List Vulnerability :=
  match run L p vs with
  | some out => out.1
  | none => []

/-! ## Auxiliary definitions for the statements -/

/-- The invariant of the nested map: keys are unique on both levels and no
group is empty. -/
def GroupInv (m : GroupMap) : Prop :=
  m.keys.Nodup ∧ ∀ e ∈ m, e.2.keys.Nodup ∧ ∀ f ∈ e.2, f.2 ≠ []

/-- The step of the inner loop of `createDetails` (lines 122-125). -/
def pathStep (vulnerability : SnykVulnerability) (str : String) (i : Nat) : String :=
  let str := str ++ vulnerability.From.getD i ""
  if (i : Int) < (vulnerability.From.length : Int) - 2 then str ++ " > " else str

/-- The part of a rendered line after the heading: the path elements with the
separators the loop inserts. -/
def pathBody (v : SnykVulnerability) : String :=
  (List.range v.From.length).foldl (pathStep v) ""

/-- The key under which a finding is grouped. -/
def groupKey (v : SnykVulnerability) : String × String := (v.ID, v.PackageName)

/-- The reading of the CWE rule in the specification: one leading `CWE-` is
stripped from the identifier. -/
def specStripPrefix (s : String) : String :=
  if ("CWE-" : String).data.isPrefixOf s.data then ⟨s.data.drop 4⟩ else s

/-- The reading of the CWE rule in the specification: a base-10 unsigned
integer is a non-empty string of decimal digits. -/
def specIsUnsigned (s : String) : Bool :=
  !s.data.isEmpty && s.data.all Char.isDigit

/-- A string made of an optional sign and one or more decimal digits. -/
def isSignedDecimal (s : String) : Bool :=
  match s.data with
  | [] => false
  | c :: t =>
    if c = '-' ∨ c = '+' then !t.isEmpty && t.all Char.isDigit
    else (c :: t).all Char.isDigit

/-- A finding with the given key, kind and dependency path, for the examples. -/
def exampleFinding (id kind pkg : String) (path : List String) : SnykVulnerability :=
  { ID := id, Type_ := kind, PackageName := pkg, Title := "Prototype Pollution",
    Description := "## Overview\nHello\n## Remediation\nUpgrade to 2.0\n",
    CVSSScore := 0, CWE := ["CWE-79"], References := [⟨"https://snyk.io/vuln/SNYK-1"⟩],
    From := path }

/-- A stand-in for the external libraries in the examples: both functions
return the text unchanged. -/
def exampleLib : TextLib := ⟨fun s => s, fun _ s => s⟩

/-- The elements of a path joined with the separator of `createDetails`
between every two neighbours. -/
def joinSep : List String → String
  | [] => ""
  | [a] => a
  | a :: b :: t => a ++ " > " ++ joinSep (b :: t)

/-- The description of the overview example. -/
def overviewExampleDescription : String := "## Overview\nHello\n## Details\nX"

/-- The outputs of the external libraries on the description of the overview
example: the rendering of `gomarkdown` with heading ids, and the text
`bluemonday` leaves of it when only `h2` with `id` is let through. -/
def overviewExampleLib : TextLib :=
  ⟨fun _ => "<h2 id=\"overview\">Overview</h2>\n\n<p>Hello</p>\n\n<h2 id=\"details\">Details</h2>\n\n<p>X</p>\n",
   fun _ _ => "<h2 id=\"overview\">Overview</h2>\n\nHello\n\n<h2 id=\"details\">Details</h2>\n\nX\n"⟩

/-- The description of the remediation example. -/
def remediationExampleDescription : String :=
  "## Remediation\n<script>bad()</script>Upgrade to 2.0\n## References\n..."

/-- The outputs of the external libraries on the description of the remediation
example: the rendering of `gomarkdown`, and a sanitizer that, as `bluemonday`
does, drops the tags and the content of `script` from the one line it is given. -/
def remediationExampleLib : TextLib :=
  ⟨fun _ => "<h2 id=\"remediation\">Remediation</h2>\n\n<p><script>bad()</script>Upgrade to 2.0</p>\n\n<h2 id=\"references\">References</h2>\n\n<p>&hellip;</p>\n",
   fun _ line => if line = "<p><script>bad()</script>Upgrade to 2.0</p>" then "Upgrade to 2.0" else line⟩

/-- A Go slice of strings as a caller sees it: the nil slice, or a slice that
is not nil and holds a sequence, which may be empty. -/
inductive GoSlice where
  | nil
  | elems (l : List String)
  deriving DecidableEq, Repr

/-- The call `append(res, x)`, whose result is never nil. -/
def GoSlice.append : GoSlice → String → GoSlice
  | GoSlice.nil, x => GoSlice.elems [x]
  | GoSlice.elems l, x => GoSlice.elems (l ++ [x])

/-- The function `extractRecommendations` with the slice it returns: `res`
starts as the empty literal of line 139, which is not nil, and grows by
`append` at line 163. -/
def extractRecommendationsSlice (L : TextLib) (p : Policy) (buf : String) : GoSlice :=
  let res := GoSlice.elems []
  let html := (L.toHTML (normalizeBuf buf)).data
  match findIndex regexpRemediationTagBegin html with
  | some locationTagRemediations =>
    let remediationSection := html.drop locationTagRemediations.2
    let remediationSection :=
      match findIndex regexpRemediationTagEnd remediationSection with
      | some locationTagRemediationsEnd => remediationSection.take locationTagRemediationsEnd.1
      | none => remediationSection
    (splitNewline remediationSection).foldl
      (fun res line =>
        if 0 < line.length then
          let aux : String := ⟨trimNewline (L.sanitize p ⟨line⟩).data⟩
          if 0 < aux.length then res.append aux else res
        else res)
      res
  | none => res

/-- A description that carries its overview heading as raw HTML with the id in
single quotes. -/
def quotedExampleDescription : String := "<h2 id='overview'>Overview</h2>\n\nHello\n"

/-- The outputs of the external libraries on the description with the quoted
heading: `gomarkdown` hands the raw heading through as it is written, and
`bluemonday` writes the attribute it lets through in double quotes. -/
def quotedExampleLib : TextLib :=
  ⟨fun _ => "<h2 id='overview'>Overview</h2>\n\n<p>Hello</p>\n",
   fun _ _ => "<h2 id=\"overview\">Overview</h2>\n\nHello\n"⟩

end VulcanSnyk

/-! ## Lemmas on Go maps -/

namespace VulcanSnyk

namespace GoMap

variable {V : Type}

theorem get?_set (m : GoMap V) (k k' : String) (v : V) :
    (m.set k v).get? k' = if k = k' then some v else m.get? k' := by
  induction m with
  | nil => simp [set, get?]
  | cons e t ih =>
    obtain ⟨a, b⟩ := e
    by_cases h : a = k
    · subst h
      by_cases h1 : a = k' <;> simp [set, get?, h1]
    · by_cases h1 : a = k'
      · subst h1
        simp [set, get?, h, Ne.symm h]
      · simp [set, get?, h, h1, ih]

theorem getD_set (m : GoMap V) (k k' : String) (v d : V) :
    (m.set k v).getD k' d = if k = k' then v else m.getD k' d := by
  unfold getD
  rw [get?_set]
  split <;> rfl

theorem set_set (m : GoMap V) (k : String) (a b : V) :
    (m.set k a).set k b = m.set k b := by
  induction m with
  | nil => simp [set]
  | cons e t ih =>
    obtain ⟨x, y⟩ := e
    by_cases h : x = k
    · simp [set, h]
    · simp [set, h, ih]

theorem keys_set (m : GoMap V) (k : String) (v : V) :
    (m.set k v).keys = if k ∈ m.keys then m.keys else m.keys ++ [k] := by
  induction m with
  | nil => simp [set, keys]
  | cons e t ih =>
    obtain ⟨x, y⟩ := e
    by_cases h : x = k
    · subst h
      simp [set, keys]
    · have ih1 : List.map Prod.fst (set t k v) =
          if k ∈ List.map Prod.fst t then List.map Prod.fst t else List.map Prod.fst t ++ [k] := ih
      have hne : ¬ k = x := fun hk => h hk.symm
      simp only [set, if_neg h, keys, List.map_cons, List.mem_cons, hne, false_or]
      rw [ih1]
      split <;> simp

theorem get?_eq_none_iff (m : GoMap V) (k : String) : m.get? k = none ↔ k ∉ m.keys := by
  induction m with
  | nil => simp [get?, keys]
  | cons e t ih =>
    obtain ⟨x, y⟩ := e
    have ih1 : get? t k = none ↔ k ∉ List.map Prod.fst t := ih
    by_cases h : x = k
    · subst h
      simp [get?, keys]
    · have hne : ¬ k = x := fun hk => h hk.symm
      simp [get?, keys, h, hne, ih1]

theorem get?_of_mem (m : GoMap V) (hm : m.keys.Nodup) (k : String) (v : V)
    (h : (k, v) ∈ m) : m.get? k = some v := by
  induction m with
  | nil => simp at h
  | cons e t ih =>
    obtain ⟨x, y⟩ := e
    have hnd : x ∉ List.map Prod.fst t ∧ (List.map Prod.fst t).Nodup := by
      simpa [keys] using hm
    rcases List.mem_cons.mp h with h1 | h1
    · cases h1
      simp [get?]
    · have hx : x ≠ k := by
        intro hxk
        subst hxk
        exact hnd.1 (List.mem_map.mpr ⟨(x, v), h1, rfl⟩)
      simp only [get?, if_neg hx]
      exact ih hnd.2 h1

theorem mem_of_get? (m : GoMap V) (k : String) (v : V) (h : m.get? k = some v) :
    (k, v) ∈ m := by
  induction m with
  | nil => simp [get?] at h
  | cons e t ih =>
    obtain ⟨x, y⟩ := e
    by_cases hx : x = k
    · subst hx
      simp [get?] at h
      simp [h]
    · simp only [get?, if_neg hx] at h
      exact List.mem_cons_of_mem _ (ih h)

theorem mem_set (m : GoMap V) (hm : m.keys.Nodup) (k : String) (v : V) (e : String × V)
    (h : e ∈ m.set k v) : e = (k, v) ∨ (e ∈ m ∧ e.1 ≠ k) := by
  induction m with
  | nil =>
    simp [set] at h
    exact Or.inl h
  | cons e0 t ih =>
    obtain ⟨x, y⟩ := e0
    have hnd : x ∉ List.map Prod.fst t ∧ (List.map Prod.fst t).Nodup := by
      simpa [keys] using hm
    by_cases hx : x = k
    · subst hx
      simp only [set, if_true, List.mem_cons] at h
      rcases h with h | h
      · exact Or.inl h
      · refine Or.inr ⟨List.mem_cons_of_mem _ h, ?_⟩
        intro he
        exact hnd.1 (List.mem_map.mpr ⟨e, h, he⟩)
    · simp only [set, if_neg hx, List.mem_cons] at h
      rcases h with h | h
      · refine Or.inr ⟨by simp [h], ?_⟩
        rw [h]
        exact hx
      · rcases ih hnd.2 h with h1 | h1
        · exact Or.inl h1
        · exact Or.inr ⟨List.mem_cons_of_mem _ h1.1, h1.2⟩

theorem nodup_keys_set (m : GoMap V) (hm : m.keys.Nodup) (k : String) (v : V) :
    (m.set k v).keys.Nodup := by
  rw [keys_set]
  split
  · exact hm
  · rename_i hk
    exact List.Nodup.append hm (List.nodup_singleton k) (by simpa using hk)

end GoMap

/-! ## Lemmas on grouping -/

theorem groupStep_license (m : GroupMap) (v : SnykVulnerability) (h : v.Type_ = "license") :
    groupStep m v = m := by
  simp [groupStep, h]

theorem groupStep_notLicense (m : GroupMap) (v : SnykVulnerability) (h : v.Type_ ≠ "license") :
    groupStep m v =
      m.set v.ID ((m.getD v.ID []).set v.PackageName
        ((m.getD v.ID []).getD v.PackageName [] ++ [v])) := by
  simp only [groupStep, if_neg h, ensureID]
  cases hg : GoMap.get? m v.ID with
  | some inner => rfl
  | none =>
    simp only [GoMap.getD_set, if_true, GoMap.set_set]
    simp [GoMap.getD, hg]

theorem groupAt_groupStep (m : GroupMap) (v : SnykVulnerability) (id pkg : String) :
    groupAt (groupStep m v) id pkg =
      groupAt m id pkg ++ (if inGroup id pkg v then [v] else []) := by
  by_cases h : v.Type_ = "license"
  · simp [groupStep_license m v h, inGroup, notLicense, h]
  · rw [groupStep_notLicense m v h]
    simp only [groupAt, GoMap.getD_set]
    by_cases h1 : v.ID = id
    · by_cases h2 : v.PackageName = pkg
      · subst h1
        subst h2
        simp [inGroup, notLicense, h, GoMap.getD_set]
      · simp [inGroup, h1, h2, GoMap.getD_set]
    · simp [inGroup, h1]

theorem groupAt_foldl (vs : List SnykVulnerability) (m : GroupMap) (id pkg : String) :
    groupAt (vs.foldl groupStep m) id pkg = groupAt m id pkg ++ vs.filter (inGroup id pkg) := by
  induction vs generalizing m with
  | nil => simp
  | cons v t ih =>
    rw [List.foldl_cons, ih, groupAt_groupStep, List.filter_cons]
    split <;> simp

theorem groupAt_groupVulnerabilities (vs : List SnykVulnerability) (id pkg : String) :
    groupAt (groupVulnerabilities vs) id pkg = vs.filter (inGroup id pkg) := by
  unfold groupVulnerabilities
  rw [groupAt_foldl]
  simp [groupAt, GoMap.getD, GoMap.get?]

theorem groupInv_nil : GroupInv [] := by
  simp [GroupInv, GoMap.keys]

theorem groupInv_groupStep (m : GroupMap) (v : SnykVulnerability) (h : GroupInv m) :
    GroupInv (groupStep m v) := by
  by_cases hl : v.Type_ = "license"
  · rw [groupStep_license m v hl]
    exact h
  · rw [groupStep_notLicense m v hl]
    have hinner : (GoMap.getD m v.ID []).keys.Nodup ∧ ∀ f ∈ GoMap.getD m v.ID [], f.2 ≠ [] := by
      unfold GoMap.getD
      cases hg : GoMap.get? m v.ID with
      | none => simp [GoMap.keys]
      | some inner => exact h.2 _ (GoMap.mem_of_get? m _ _ hg)
    refine ⟨GoMap.nodup_keys_set m h.1 _ _, ?_⟩
    intro e he
    rcases GoMap.mem_set m h.1 _ _ e he with he1 | he1
    · rw [he1]
      refine ⟨GoMap.nodup_keys_set _ hinner.1 _ _, ?_⟩
      intro f hf
      rcases GoMap.mem_set _ hinner.1 _ _ f hf with hf1 | hf1
      · rw [hf1]
        simp
      · exact hinner.2 f hf1.1
    · exact h.2 e he1.1

theorem groupInv_foldl (vs : List SnykVulnerability) (m : GroupMap) (h : GroupInv m) :
    GroupInv (vs.foldl groupStep m) := by
  induction vs generalizing m with
  | nil => exact h
  | cons v t ih => exact ih _ (groupInv_groupStep m v h)

theorem groupInv_groupVulnerabilities (vs : List SnykVulnerability) :
    GroupInv (groupVulnerabilities vs) :=
  groupInv_foldl vs [] groupInv_nil

theorem groupAt_of_mem (m : GroupMap) (h : GroupInv m) (e : String × GoMap (List SnykVulnerability))
    (he : e ∈ m) (f : String × List SnykVulnerability) (hf : f ∈ e.2) :
    groupAt m e.1 f.1 = f.2 := by
  have h1 : GoMap.get? m e.1 = some e.2 := GoMap.get?_of_mem m h.1 e.1 e.2 he
  have h2 : GoMap.get? e.2 f.1 = some f.2 := GoMap.get?_of_mem e.2 (h.2 e he).1 f.1 f.2 hf
  simp [groupAt, GoMap.getD, h1, h2]

theorem mem_groupKeys_iff (m : GroupMap) (h : GroupInv m) (id pkg : String) :
    (id, pkg) ∈ groupKeys m ↔ groupAt m id pkg ≠ [] := by
  constructor
  · intro hk
    simp only [groupKeys, List.mem_flatMap, List.mem_map, Prod.mk.injEq] at hk
    obtain ⟨e, he, f, hf, h1, h2⟩ := hk
    rw [← h1, ← h2, groupAt_of_mem m h e he f hf]
    exact (h.2 e he).2 f hf
  · intro hg
    simp only [groupKeys, List.mem_flatMap, List.mem_map, Prod.mk.injEq]
    cases h1 : GoMap.get? m id with
    | none => simp [groupAt, GoMap.getD, h1, GoMap.get?] at hg
    | some inner =>
      cases h2 : GoMap.get? inner pkg with
      | none => simp [groupAt, GoMap.getD, h1, h2] at hg
      | some g =>
        exact ⟨(id, inner), GoMap.mem_of_get? m id inner h1, (pkg, g),
          GoMap.mem_of_get? inner pkg g h2, rfl, rfl⟩

theorem nodup_groupKeys (m : GroupMap) (h : GroupInv m) : (groupKeys m).Nodup := by
  induction m with
  | nil => simp [groupKeys]
  | cons e t ih =>
    have hnd : e.1 ∉ List.map Prod.fst t ∧ (List.map Prod.fst t).Nodup := by
      simpa [GoMap.keys] using h.1
    have ht : GroupInv t := ⟨hnd.2, fun e1 he1 => h.2 e1 (List.mem_cons_of_mem _ he1)⟩
    have hcons : groupKeys (e :: t) = (e.2.map fun f => (e.1, f.1)) ++ groupKeys t := by
      simp [groupKeys]
    rw [hcons]
    refine List.Nodup.append ?_ (ih ht) ?_
    · have h1 : (e.2.map Prod.fst).Nodup := (h.2 e (List.mem_cons_self _ _)).1
      have h2 : (e.2.map fun f => (e.1, f.1)) = (e.2.map Prod.fst).map (fun k => (e.1, k)) := by
        simp
      rw [h2]
      exact List.Nodup.map (fun a b hab => by simpa using hab) h1
    · intro k hk1 hk2
      simp only [List.mem_map] at hk1
      obtain ⟨f, _, hf⟩ := hk1
      simp only [groupKeys, List.mem_flatMap, List.mem_map] at hk2
      obtain ⟨e1, he1, f1, _, hf1⟩ := hk2
      apply hnd.1
      have : e.1 = e1.1 := by
        rw [← hf] at hf1
        exact (Prod.mk.injEq _ _ _ _ ▸ hf1).1.symm
      rw [this]
      exact List.mem_map.mpr ⟨e1, he1, rfl⟩

theorem groupCount_eq_length_groupKeys (m : GroupMap) : groupCount m = (groupKeys m).length := by
  induction m with
  | nil => simp [groupCount, groupList, groupKeys]
  | cons e t ih =>
    simp only [groupCount, groupList, groupKeys, List.flatMap_cons, List.length_append,
      List.length_map] at ih ⊢
    rw [ih]

theorem groupVulnerabilities_filter (vs : List SnykVulnerability) (m : GroupMap) :
    (vs.filter notLicense).foldl groupStep m = vs.foldl groupStep m := by
  induction vs generalizing m with
  | nil => rfl
  | cons v t ih =>
    by_cases hl : v.Type_ = "license"
    · have hn : notLicense v = false := by simp [notLicense, hl]
      rw [List.filter_cons_of_neg (by simp [hn]), List.foldl_cons, groupStep_license m v hl]
      exact ih m
    · have hn : notLicense v = true := by simp [notLicense, hl]
      rw [List.filter_cons_of_pos hn, List.foldl_cons, List.foldl_cons]
      exact ih _

theorem mem_group_eq_filter (vs : List SnykVulnerability)
    (e : String × GoMap (List SnykVulnerability)) (he : e ∈ groupVulnerabilities vs)
    (f : String × List SnykVulnerability) (hf : f ∈ e.2) :
    f.2 = vs.filter (inGroup e.1 f.1) := by
  rw [← groupAt_of_mem _ (groupInv_groupVulnerabilities vs) e he f hf]
  exact groupAt_groupVulnerabilities vs e.1 f.1

theorem mem_groupList (m : GroupMap) (g : String × List SnykVulnerability) :
    g ∈ groupList m ↔ ∃ e ∈ m, g ∈ e.2 := by
  simp [groupList, List.mem_flatMap]

/-! ## Lemmas on record emission -/

theorem emitVulns_total (L : TextLib) (gs : List (String × List SnykVulnerability))
    (h : ∀ g ∈ gs, g.2 ≠ []) (p : Policy) :
    ∃ out, emitVulns L p gs = some out ∧ out.1.length = gs.length := by
  induction gs generalizing p with
  | nil => exact ⟨([], p), rfl, rfl⟩
  | cons g t ih =>
    obtain ⟨name, issues⟩ := g
    have hne : issues ≠ [] := h (name, issues) (List.mem_cons_self _ _)
    obtain ⟨first, rest, hfr⟩ := List.exists_cons_of_ne_nil hne
    subst hfr
    obtain ⟨out, ho, hlen⟩ :=
      ih (fun g hg => h g (List.mem_cons_of_mem _ hg))
        (extractOverview L p first.Description).2
    have hr : ∃ r, emitVulns L p ((name, first :: rest) :: t) = some (r :: out.1, out.2) := by
      simp only [emitVulns, buildVulnerability, ho]
      exact ⟨_, rfl⟩
    obtain ⟨r, hr⟩ := hr
    exact ⟨(r :: out.1, out.2), hr, by simp [hlen]⟩

theorem run_total (L : TextLib) (p : Policy) (vs : List SnykVulnerability) :
    ∃ out, run L p vs = some out ∧ out.1.length = groupCount (groupVulnerabilities vs) := by
  unfold run groupCount
  apply emitVulns_total
  intro g hg
  obtain ⟨e, he, hge⟩ := (mem_groupList _ g).mp hg
  exact ((groupInv_groupVulnerabilities vs).2 e he).2 g hge

/-! ## Lemmas on `createDetails` -/

theorem createDetails_foldl (vs : List SnykVulnerability) (init : String) :
    vs.foldl (fun res vulnerability => res ++ detailsStr vulnerability ++ "\n") init =
      init ++ createDetails vs := by
  induction vs generalizing init with
  | nil => simp [createDetails]
  | cons v t ih =>
    show List.foldl (fun res vulnerability => res ++ detailsStr vulnerability ++ "\n")
        (init ++ detailsStr v ++ "\n") t =
      init ++ List.foldl (fun res vulnerability => res ++ detailsStr vulnerability ++ "\n")
        ("" ++ detailsStr v ++ "\n") t
    rw [ih, ih ("" ++ detailsStr v ++ "\n")]
    simp [String.append_assoc]

theorem createDetails_nil : createDetails [] = "" := rfl

theorem createDetails_cons (v : SnykVulnerability) (t : List SnykVulnerability) :
    createDetails (v :: t) = detailsStr v ++ "\n" ++ createDetails t := by
  show List.foldl (fun res vulnerability => res ++ detailsStr vulnerability ++ "\n")
      ("" ++ detailsStr v ++ "\n") t = detailsStr v ++ "\n" ++ createDetails t
  rw [createDetails_foldl]
  simp

theorem createDetails_append (xs ys : List SnykVulnerability) :
    createDetails (xs ++ ys) = createDetails xs ++ createDetails ys := by
  induction xs with
  | nil => simp [createDetails_nil]
  | cons v t ih => simp [createDetails_cons, ih, String.append_assoc]

theorem detailsStr_eq (v : SnykVulnerability) :
    detailsStr v = (List.range v.From.length).foldl (pathStep v) "Introduced through: " := rfl

theorem pathStep_foldl (v : SnykVulnerability) (l : List Nat) (init : String) :
    l.foldl (pathStep v) init = init ++ l.foldl (pathStep v) "" := by
  induction l generalizing init with
  | nil => simp
  | cons i t ih =>
    simp only [List.foldl_cons]
    rw [ih, ih (pathStep v "" i)]
    unfold pathStep
    split <;> simp [String.append_assoc]

theorem detailsStr_heading (v : SnykVulnerability) :
    detailsStr v = "Introduced through: " ++ pathBody v := by
  rw [detailsStr_eq, pathStep_foldl]
  rfl

theorem newlineCount_append (a b : String) :
    newlineCount (a ++ b) = newlineCount a + newlineCount b := by
  simp [newlineCount, String.data_append, List.count_append]

theorem newlineCount_pathStep_foldl (v : SnykVulnerability)
    (h : ∀ e ∈ v.From, '\n' ∉ e.data) (l : List Nat) (init : String)
    (hi : newlineCount init = 0) : newlineCount (l.foldl (pathStep v) init) = 0 := by
  induction l generalizing init with
  | nil => simpa using hi
  | cons i t ih =>
    rw [List.foldl_cons]
    apply ih
    have hel : newlineCount (v.From.getD i "") = 0 := by
      unfold newlineCount
      rw [List.count_eq_zero]
      by_cases hlt : i < v.From.length
      · rw [List.getD_eq_getElem _ _ hlt]
        exact h _ (List.getElem_mem _)
      · rw [List.getD_eq_default _ _ (Nat.le_of_not_lt hlt)]
        simp
    unfold pathStep
    split
    · rw [newlineCount_append, newlineCount_append, hi, hel]
      decide
    · rw [newlineCount_append, hi, hel]

theorem newlineCount_detailsStr (v : SnykVulnerability) (h : ∀ e ∈ v.From, '\n' ∉ e.data) :
    newlineCount (detailsStr v) = 0 := by
  rw [detailsStr_eq]
  exact newlineCount_pathStep_foldl v h _ _ (by decide)

theorem newlineCount_createDetails (vs : List SnykVulnerability)
    (h : ∀ v ∈ vs, ∀ e ∈ v.From, '\n' ∉ e.data) :
    newlineCount (createDetails vs) = vs.length := by
  induction vs with
  | nil => rfl
  | cons v t ih =>
    rw [createDetails_cons, newlineCount_append, newlineCount_append,
      newlineCount_detailsStr v (h v (List.mem_cons_self _ _)),
      ih (fun w hw => h w (List.mem_cons_of_mem _ hw))]
    have : newlineCount "\n" = 1 := by decide
    rw [this, List.length_cons]
    omega

theorem detailsStr_three (v : SnykVulnerability) (a b c : String) (h : v.From = [a, b, c]) :
    detailsStr v = "Introduced through: " ++ a ++ " > " ++ b ++ c := by
  rw [detailsStr_eq, h]
  simp [List.range_succ, pathStep, h]

/-! ## Lemmas on the CWE identifier -/

theorem replaceGo_of_not_mem (old new : List Char) (c0 : Char) (rest : List Char)
    (ho : old = c0 :: rest) (s : List Char) (h : c0 ∉ s) : replaceGo old new 0 s = s := by
  induction s with
  | nil => rfl
  | cons c t ih =>
    have hc : ¬ c0 = c := fun e => h (by simp [e])
    have ht : c0 ∉ t := fun e => h (List.mem_cons_of_mem _ e)
    subst ho
    have hb : (c0 == c) = false := by simpa using hc
    simp only [replaceGo, List.isPrefixOf, hb, Bool.false_and, Bool.false_eq_true, if_false]
    rw [ih ht]

theorem replaceAll_cwe_head (s : String) :
    replaceAll ("CWE-" ++ s) "CWE-" "" = replaceAll s "CWE-" "" := by
  have h : ("CWE-" ++ s).data = 'C' :: 'W' :: 'E' :: '-' :: s.data := by
    rw [String.data_append]
    rfl
  have hold : ("CWE-" : String).data = ['C', 'W', 'E', '-'] := rfl
  unfold replaceAll
  rw [h, hold]
  simp [replaceGo, List.isPrefixOf]

theorem replaceAll_cwe_of_not_mem (s : String) (h : 'C' ∉ s.data) :
    replaceAll s "CWE-" "" = s := by
  have hold : ("CWE-" : String).data = ['C', 'W', 'E', '-'] := rfl
  unfold replaceAll
  rw [hold]
  simp only [reduceCtorEq, if_false]
  rw [replaceGo_of_not_mem _ _ 'C' ['W', 'E', '-'] rfl _ h]

theorem digitsValue_append_singleton (pre : List Char) (d : Char) :
    digitsValue (pre ++ [d]) = 10 * digitsValue pre + (d.toNat - '0'.toNat) := by
  simp [digitsValue, List.foldl_append]

theorem digitChar_spec : ∀ k : Fin 10,
    (Nat.digitChar k.val).isDigit = true ∧ (Nat.digitChar k.val).toNat - '0'.toNat = k.val := by
  decide

theorem toDigitsCore_spec (fuel : Nat) : ∀ (n : Nat) (ds : List Char), n < fuel →
    ∃ pre, Nat.toDigitsCore 10 fuel n ds = pre ++ ds ∧ pre ≠ [] ∧
      (∀ c ∈ pre, c.isDigit = true) ∧ digitsValue pre = n := by
  induction fuel with
  | zero => intro n ds h; omega
  | succ fuel ih =>
    intro n ds h
    have hd := digitChar_spec ⟨n % 10, Nat.mod_lt _ (by decide)⟩
    simp only at hd
    by_cases h0 : n / 10 = 0
    · refine ⟨[Nat.digitChar (n % 10)], ?_, by simp, ?_, ?_⟩
      · simp [Nat.toDigitsCore, h0]
      · intro c hc
        rw [List.mem_singleton] at hc
        rw [hc]
        exact hd.1
      · have hn : n % 10 = n := by omega
        have := digitsValue_append_singleton [] (Nat.digitChar (n % 10))
        simp only [List.nil_append] at this
        rw [this, hd.2]
        simp [digitsValue, hn]
    · have hlt : n / 10 < fuel := by omega
      obtain ⟨pre, hp, _, hdig, hval⟩ := ih (n / 10) (Nat.digitChar (n % 10) :: ds) hlt
      refine ⟨pre ++ [Nat.digitChar (n % 10)], ?_, by simp, ?_, ?_⟩
      · simp [Nat.toDigitsCore, h0, hp]
      · intro c hc
        rcases List.mem_append.mp hc with hc | hc
        · exact hdig c hc
        · rw [List.mem_singleton] at hc
          rw [hc]
          exact hd.1
      · rw [digitsValue_append_singleton, hval, hd.2]
        omega

theorem repr_spec (n : Nat) :
    (Nat.repr n).data ≠ [] ∧ (∀ c ∈ (Nat.repr n).data, c.isDigit = true) ∧
      digitsValue (Nat.repr n).data = n := by
  obtain ⟨pre, hp, hne, hdig, hval⟩ := toDigitsCore_spec (n + 1) n [] (Nat.lt_succ_self n)
  have hr : (Nat.repr n).data = pre := by
    simp [Nat.repr, Nat.toDigits, List.asString, hp]
  rw [hr]
  exact ⟨hne, hdig, hval⟩

theorem atoi_digits (s : String) (hne : s.data ≠ []) (hd : ∀ c ∈ s.data, c.isDigit = true)
    (hv : digitsValue s.data < 2 ^ 63) : atoi s = some (digitsValue s.data : Int) := by
  obtain ⟨c, t, hct⟩ := List.exists_cons_of_ne_nil hne
  have hc : c.isDigit = true := hd c (by simp [hct])
  have hm : c ≠ '-' := by
    intro e
    rw [e] at hc
    exact absurd hc (by decide)
  have hp : c ≠ '+' := by
    intro e
    rw [e] at hc
    exact absurd hc (by decide)
  have hall : (c :: t).all Char.isDigit = true := by
    rw [List.all_eq_true]
    intro x hx
    exact hd x (by rw [hct]; exact hx)
  unfold atoi
  rw [hct] at hv ⊢
  split
  · rename_i heq
    simp at heq
    exact absurd heq.1 hm
  · rename_i heq
    simp at heq
    exact absurd heq.1 hp
  · have hv1 : digitsValue (c :: t) < 9223372036854775808 := by
      have e : (2 : Nat) ^ 63 = 9223372036854775808 := by norm_num
      rw [← e]
      exact hv
    simp [hall, hv1]

theorem toUint32_of_lt (n : Nat) (h : n < 2 ^ 32) : toUint32 (n : Int) = n := by
  unfold toUint32
  have : ((n : Int) % 2 ^ 32) = (n : Int) := Int.emod_eq_of_lt (by omega) (by exact_mod_cast h)
  rw [this]
  simp

theorem cweIDOf_decimal (n : Nat) (h : n < 2 ^ 32) (rest : List String) :
    cweIDOf (("CWE-" ++ Nat.repr n) :: rest) = n := by
  obtain ⟨hne, hdig, hval⟩ := repr_spec n
  have hC : 'C' ∉ (Nat.repr n).data := by
    intro hc
    exact absurd (hdig _ hc) (by decide)
  have hlt : digitsValue (Nat.repr n).data < 2 ^ 63 := by
    rw [hval]
    exact lt_trans h (by norm_num)
  simp only [cweIDOf]
  rw [replaceAll_cwe_head, replaceAll_cwe_of_not_mem _ hC, atoi_digits _ hne hdig hlt, hval]
  exact toUint32_of_lt n h

theorem referenceURLs_foldl (refs : List SnykReference) (init : List String) :
    refs.foldl (fun acc ref => acc ++ [ref.URL]) init = init ++ refs.map (·.URL) := by
  induction refs generalizing init with
  | nil => simp
  | cons r t ih => simp [ih]

theorem referenceURLs_eq_map (refs : List SnykReference) :
    referenceURLs refs = refs.map (·.URL) := by
  simp [referenceURLs, referenceURLs_foldl]

theorem mem_filter_keys_iff (vs : List SnykVulnerability) (id pkg : String) :
    (id, pkg) ∈ (vs.filter notLicense).map groupKey ↔ vs.filter (inGroup id pkg) ≠ [] := by
  rw [Ne, List.filter_eq_nil_iff]
  simp only [List.mem_map, List.mem_filter, groupKey, Prod.mk.injEq, inGroup, Bool.and_eq_true,
    decide_eq_true_eq, not_forall, not_not]
  constructor
  · rintro ⟨v, ⟨hv, hn⟩, h1, h2⟩
    exact ⟨v, hv, ⟨hn, h1⟩, h2⟩
  · rintro ⟨v, hv, ⟨hn, h1⟩, h2⟩
    exact ⟨v, ⟨hv, hn⟩, h1, h2⟩

theorem groupKeys_perm_dedup (vs : List SnykVulnerability) :
    (groupKeys (groupVulnerabilities vs)).Perm ((vs.filter notLicense).map groupKey).dedup := by
  rw [List.perm_ext_iff_of_nodup (nodup_groupKeys _ (groupInv_groupVulnerabilities vs))
    (List.nodup_dedup _)]
  rintro ⟨id, pkg⟩
  rw [List.mem_dedup, mem_groupKeys_iff _ (groupInv_groupVulnerabilities vs),
    groupAt_groupVulnerabilities, mem_filter_keys_iff]

theorem groupStep_same_key (id pkg : String) (g : List SnykVulnerability)
    (v : SnykVulnerability) (h : v.Type_ ≠ "license" ∧ v.ID = id ∧ v.PackageName = pkg) :
    groupStep [(id, [(pkg, g)])] v = [(id, [(pkg, g ++ [v])])] := by
  obtain ⟨hl, h1, h2⟩ := h
  subst h1
  subst h2
  simp [groupStep, hl, ensureID, GoMap.get?, GoMap.set, GoMap.getD]

theorem foldl_groupStep_same_key (id pkg : String) (rest : List SnykVulnerability)
    (h : ∀ v ∈ rest, v.Type_ ≠ "license" ∧ v.ID = id ∧ v.PackageName = pkg)
    (g : List SnykVulnerability) :
    rest.foldl groupStep [(id, [(pkg, g)])] = [(id, [(pkg, g ++ rest)])] := by
  induction rest generalizing g with
  | nil => simp
  | cons v t ih =>
    rw [List.foldl_cons, groupStep_same_key id pkg g v (h v (List.mem_cons_self _ _)),
      ih (fun w hw => h w (List.mem_cons_of_mem _ hw))]
    simp

theorem groupVulnerabilities_same_key (id pkg : String) (first : SnykVulnerability)
    (rest : List SnykVulnerability)
    (h : ∀ v ∈ first :: rest, v.Type_ ≠ "license" ∧ v.ID = id ∧ v.PackageName = pkg) :
    groupVulnerabilities (first :: rest) = [(id, [(pkg, first :: rest)])] := by
  obtain ⟨hl, h1, h2⟩ := h first (List.mem_cons_self _ _)
  have hs : groupStep [] first = [(id, [(pkg, [first])])] := by
    subst h1
    subst h2
    simp [groupStep, hl, ensureID, GoMap.get?, GoMap.set, GoMap.getD]
  unfold groupVulnerabilities
  rw [List.foldl_cons, hs, foldl_groupStep_same_key id pkg rest
    (fun w hw => h w (List.mem_cons_of_mem _ hw))]
  simp

theorem createDetails_eq_foldr (vs : List SnykVulnerability) :
    createDetails vs =
      (vs.map fun v => "Introduced through: " ++ pathBody v ++ "\n").foldr (· ++ ·) "" := by
  induction vs with
  | nil => rfl
  | cons v t ih => rw [createDetails_cons, ih, detailsStr_heading]; simp

theorem atoi_none_of_not_signedDecimal (s : String) (h : isSignedDecimal s = false) :
    atoi s = none := by
  unfold isSignedDecimal at h
  unfold atoi
  split at h
  · rename_i he
    simp [he]
  · rename_i c t he
    rw [he]
    by_cases hm : c = '-'
    · subst hm
      simp only [true_or, if_true] at h
      cases t with
      | nil => simp
      | cons d u =>
        simp only [List.isEmpty_cons, Bool.not_false, Bool.true_and] at h
        simp [h]
    · by_cases hp : c = '+'
      · subst hp
        simp only [or_true, if_true] at h
        cases t with
        | nil => simp
        | cons d u =>
          simp only [List.isEmpty_cons, Bool.not_false, Bool.true_and] at h
          simp [h]
      · simp only [hm, hp, or_self, if_false] at h
        split
        · rename_i heq
          simp at heq
          exact absurd heq.1 hm
        · rename_i heq
          simp at heq
          exact absurd heq.1 hp
        · simp [h]

/-! ## The claims -/

/-- C1: for every input and every key (id, packageName), the group stored under
the key is the subsequence of the input made of the findings that are not of
kind license and carry that id and packageName, in arrival order; this holds
for the lookup and for every group the map ranges over, and a finding occurs in
its group as often as in the input. -/
theorem grouping_is_filter (vs : List SnykVulnerability) (id pkg : String) :
    groupAt (groupVulnerabilities vs) id pkg = vs.filter (inGroup id pkg) ∧
    (∀ e ∈ groupVulnerabilities vs, ∀ f ∈ e.2, f.2 = vs.filter (inGroup e.1 f.1)) ∧
    (∀ v, inGroup id pkg v = true →
      (groupAt (groupVulnerabilities vs) id pkg).count v = vs.count v) := by
  refine ⟨groupAt_groupVulnerabilities vs id pkg, ?_, ?_⟩
  · intro e he f hf
    exact mem_group_eq_filter vs e he f hf
  · intro v hv
    rw [groupAt_groupVulnerabilities]
    exact List.count_filter hv

/-- C2: the number of groups of the nested map, and the number of records a run
emits, is the number of distinct (id, packageName) pairs among the findings
that are not of kind license. -/
theorem group_count_eq_distinct_keys (L : TextLib) (p : Policy) (vs : List SnykVulnerability) :
    groupCount (groupVulnerabilities vs) = ((vs.filter notLicense).map groupKey).dedup.length ∧
    ∃ out, run L p vs = some out ∧
      out.1.length = ((vs.filter notLicense).map groupKey).dedup.length := by
  have hc : groupCount (groupVulnerabilities vs) =
      ((vs.filter notLicense).map groupKey).dedup.length := by
    rw [groupCount_eq_length_groupKeys]
    exact (groupKeys_perm_dedup vs).length_eq
  refine ⟨hc, ?_⟩
  obtain ⟨out, ho, hlen⟩ := run_total L p vs
  exact ⟨out, ho, hlen.trans hc⟩

/-- C3: no group holds a finding of kind license, and the map and the emitted
records are those of the input with the license findings removed. -/
theorem license_exclusion (L : TextLib) (p : Policy) (vs : List SnykVulnerability) :
    (∀ e ∈ groupVulnerabilities vs, ∀ f ∈ e.2, ∀ v ∈ f.2, v.Type_ ≠ "license") ∧
    groupVulnerabilities vs = groupVulnerabilities (vs.filter notLicense) ∧
    run L p vs = run L p (vs.filter notLicense) := by
  have hg : groupVulnerabilities vs = groupVulnerabilities (vs.filter notLicense) :=
    (groupVulnerabilities_filter vs []).symm
  refine ⟨?_, hg, ?_⟩
  · intro e he f hf v hv
    rw [mem_group_eq_filter vs e he f hf, List.mem_filter] at hv
    have h := hv.2
    simp only [inGroup, notLicense, Bool.and_eq_true, decide_eq_true_eq] at h
    exact h.1.1
  · unfold run
    rw [hg]

/-- C4, as the code has it: for a path [a, b, c] the separator is written after
a only, so the rendered line is the heading followed by a, the separator, and b
and c with nothing between them. -/
theorem createDetails_three (v : SnykVulnerability) (a b c : String) :
    createDetails [{ v with From := [a, b, c] }] =
      "Introduced through: " ++ a ++ " > " ++ b ++ c ++ "\n" := by
  rw [createDetails_cons, createDetails_nil, detailsStr_three _ a b c rfl]
  simp

/-- C4 fails as stated: the line rendered for the path a, b, c is not the
separator-free "a b c"; it holds one separator. -/
theorem createDetails_three_not_plain :
    detailsStr (exampleFinding "SNYK-1" "security" "lodash" ["a", "b", "c"]) ≠
        "Introduced through: a b c" ∧
      detailsStr (exampleFinding "SNYK-1" "security" "lodash" ["a", "b", "c"]) =
        "Introduced through: a > bc" := by
  decide

/-- C5 at the failing input: for the path a, b, c the code renders "a > bc",
not the path joined with the separator between every two elements. -/
theorem createDetails_abc_eval :
    createDetails [exampleFinding "SNYK-1" "security" "lodash" ["a", "b", "c"]] =
        "Introduced through: a > bc\n" ∧
      createDetails [exampleFinding "SNYK-1" "security" "lodash" ["a", "b", "c"]] ≠
        "Introduced through: " ++ " > ".intercalate ["a", "b", "c"] ++ "\n" := by
  decide

/-- C6: `createDetails` writes one newline-terminated line per finding in group
order: it is empty on the empty group, distributes over concatenation, every
line starts with the heading and ends with a newline, and when no path element
holds a newline the result has as many newlines as the group has findings. -/
theorem createDetails_lines (xs ys : List SnykVulnerability)
    (h : ∀ v ∈ xs, ∀ e ∈ v.From, '\n' ∉ e.data) :
    createDetails [] = "" ∧
    createDetails (xs ++ ys) = createDetails xs ++ createDetails ys ∧
    (∀ v t, createDetails (v :: t) =
      "Introduced through: " ++ pathBody v ++ "\n" ++ createDetails t) ∧
    newlineCount (createDetails xs) = xs.length := by
  refine ⟨rfl, createDetails_append xs ys, ?_, newlineCount_createDetails xs h⟩
  intro v t
  rw [createDetails_cons, detailsStr_heading]

/-- C6 at the paths [a, b] and [x, y, z]: two lines. -/
theorem createDetails_lines_witness :
    (∀ v ∈ [exampleFinding "SNYK-1" "security" "lodash" ["a", "b"],
        exampleFinding "SNYK-1" "security" "lodash" ["x", "y", "z"]],
      ∀ e ∈ v.From, '\n' ∉ e.data) ∧
    (createDetails [] = "" ∧
    createDetails ([exampleFinding "SNYK-1" "security" "lodash" ["a", "b"],
        exampleFinding "SNYK-1" "security" "lodash" ["x", "y", "z"]] ++ []) =
      createDetails [exampleFinding "SNYK-1" "security" "lodash" ["a", "b"],
        exampleFinding "SNYK-1" "security" "lodash" ["x", "y", "z"]] ++ createDetails [] ∧
    (∀ v t, createDetails (v :: t) =
      "Introduced through: " ++ pathBody v ++ "\n" ++ createDetails t) ∧
    newlineCount (createDetails [exampleFinding "SNYK-1" "security" "lodash" ["a", "b"],
        exampleFinding "SNYK-1" "security" "lodash" ["x", "y", "z"]]) =
      [exampleFinding "SNYK-1" "security" "lodash" ["a", "b"],
        exampleFinding "SNYK-1" "security" "lodash" ["x", "y", "z"]].length) :=
  ⟨by decide, createDetails_lines _ [] (by decide)⟩

/-- C7: for an input of one or more findings that are not of kind license and
share one id and one packageName, the run emits exactly one record; its summary
is the title of the first finding, a colon and a blank, and the packageName, and
its details are the rendered lines of all findings in arrival order. -/
theorem single_key_one_record (L : TextLib) (p : Policy) (id pkg : String)
    (first : SnykVulnerability) (rest : List SnykVulnerability)
    (h : ∀ v ∈ first :: rest, v.Type_ ≠ "license" ∧ v.ID = id ∧ v.PackageName = pkg) :
    ∃ r p', run L p (first :: rest) = some ([r], p') ∧
      r.Summary = first.Title ++ ": " ++ pkg ∧
      r.Details = createDetails (first :: rest) ∧
      r.Details = ((first :: rest).map fun v =>
        "Introduced through: " ++ pathBody v ++ "\n").foldr (· ++ ·) "" := by
  have hb : ∃ r p', buildVulnerability L p pkg (first :: rest) = some (r, p') ∧
      r.Summary = first.Title ++ ": " ++ pkg ∧ r.Details = createDetails (first :: rest) :=
    ⟨_, _, rfl, rfl, rfl⟩
  obtain ⟨r, p', hb, hs, hd⟩ := hb
  refine ⟨r, p', ?_, hs, hd, hd.trans (createDetails_eq_foldr _)⟩
  unfold run
  rw [groupVulnerabilities_same_key id pkg first rest h]
  simp [groupList, emitVulns, hb]

/-- C7 at two findings of kind security with id SNYK-1 and package lodash that
differ in their dependency path. -/
theorem single_key_one_record_witness :
    (∀ v ∈ [exampleFinding "SNYK-1" "security" "lodash" ["app", "lodash"],
        exampleFinding "SNYK-1" "security" "lodash" ["app", "express", "lodash"]],
      v.Type_ ≠ "license" ∧ v.ID = "SNYK-1" ∧ v.PackageName = "lodash") ∧
    ∃ r p', run exampleLib strictPolicy
        [exampleFinding "SNYK-1" "security" "lodash" ["app", "lodash"],
          exampleFinding "SNYK-1" "security" "lodash" ["app", "express", "lodash"]] =
        some ([r], p') ∧
      r.Summary = (exampleFinding "SNYK-1" "security" "lodash" ["app", "lodash"]).Title ++
        ": " ++ "lodash" ∧
      r.Details = createDetails
        [exampleFinding "SNYK-1" "security" "lodash" ["app", "lodash"],
          exampleFinding "SNYK-1" "security" "lodash" ["app", "express", "lodash"]] ∧
      r.Details = ([exampleFinding "SNYK-1" "security" "lodash" ["app", "lodash"],
          exampleFinding "SNYK-1" "security" "lodash" ["app", "express", "lodash"]].map fun v =>
        "Introduced through: " ++ pathBody v ++ "\n").foldr (· ++ ·) "" :=
  ⟨by decide, single_key_one_record exampleLib strictPolicy "SNYK-1" "lodash" _ _ (by decide)⟩

/-- C8: when the first CWE identifier is `CWE-` followed by the decimal digits
of a number n below 2^32, the record of the group carries n as its CWEID,
whatever the other identifiers are; for an empty identifier list the CWEID keeps
its zero value. -/
theorem cwe_parse_success (L : TextLib) (p : Policy) (moduleName : String)
    (first : SnykVulnerability) (tail : List SnykVulnerability) (n : Nat) (rest : List String)
    (h : n < 2 ^ 32) :
    (∃ r p', buildVulnerability L p moduleName
        ({ first with CWE := ("CWE-" ++ Nat.repr n) :: rest } :: tail) = some (r, p') ∧
      r.CWEID = n) ∧
    (∃ r p', buildVulnerability L p moduleName ({ first with CWE := [] } :: tail) =
        some (r, p') ∧
      r.CWEID = 0) := by
  constructor
  · exact ⟨_, _, rfl, cweIDOf_decimal n h rest⟩
  · exact ⟨_, _, rfl, rfl⟩

/-- C8 at the identifier CWE-79. -/
theorem cwe_parse_success_witness :
    79 < 2 ^ 32 ∧
    ((∃ r p', buildVulnerability exampleLib strictPolicy "lodash"
        ({ exampleFinding "SNYK-1" "security" "lodash" ["app", "lodash"] with
            CWE := ("CWE-" ++ Nat.repr 79) :: ["CWE-80"] } :: []) = some (r, p') ∧
      r.CWEID = 79) ∧
    (∃ r p', buildVulnerability exampleLib strictPolicy "lodash"
        ({ exampleFinding "SNYK-1" "security" "lodash" ["app", "lodash"] with
            CWE := [] } :: []) = some (r, p') ∧
      r.CWEID = 0)) :=
  ⟨by decide, cwe_parse_success exampleLib strictPolicy "lodash" _ [] 79 ["CWE-80"] (by decide)⟩

/-- C9, as the code has it: when the first CWE identifier, with every
occurrence of `CWE-` removed, is not an optional sign followed by one or more
decimal digits, the record is still built and its CWEID keeps the zero value;
a CWEID other than zero is stored only when that remainder has this form. -/
theorem cwe_parse_failure (L : TextLib) (p : Policy) (moduleName : String)
    (first : SnykVulnerability) (tail : List SnykVulnerability) (x : String) (rest : List String)
    (h : isSignedDecimal (replaceAll x "CWE-" "") = false) :
    (∃ r p', buildVulnerability L p moduleName ({ first with CWE := x :: rest } :: tail) =
        some (r, p') ∧
      r.CWEID = 0) ∧
    (∀ y : String, cweIDOf (y :: rest) ≠ 0 → isSignedDecimal (replaceAll y "CWE-" "") = true) := by
  constructor
  · refine ⟨_, _, rfl, ?_⟩
    show cweIDOf (x :: rest) = 0
    simp [cweIDOf, atoi_none_of_not_signedDecimal _ h]
  · intro y hy
    by_contra hn
    have hf : isSignedDecimal (replaceAll y "CWE-" "") = false := by
      simpa using hn
    apply hy
    simp [cweIDOf, atoi_none_of_not_signedDecimal _ hf]

/-- C9 at the identifier not-a-cwe. -/
theorem cwe_parse_failure_witness :
    isSignedDecimal (replaceAll "not-a-cwe" "CWE-" "") = false ∧
    ((∃ r p', buildVulnerability exampleLib strictPolicy "lodash"
        ({ exampleFinding "SNYK-1" "security" "lodash" ["app", "lodash"] with
            CWE := "not-a-cwe" :: [] } :: []) = some (r, p') ∧
      r.CWEID = 0) ∧
    (∀ y : String, cweIDOf (y :: []) ≠ 0 →
      isSignedDecimal (replaceAll y "CWE-" "") = true)) :=
  ⟨by decide, cwe_parse_failure exampleLib strictPolicy "lodash" _ [] "not-a-cwe" [] (by decide)⟩

/-- C9 fails as stated: for the identifiers 1CWE-2, CWE-+5 and CWE--1 the
remainder after stripping a leading `CWE-` is not a base-10 unsigned integer,
and yet a CWEID is stored. -/
theorem cwe_not_unsigned_stored :
    (specIsUnsigned (specStripPrefix "1CWE-2") = false ∧ cweIDOf ["1CWE-2"] = 12) ∧
    (specIsUnsigned (specStripPrefix "CWE-+5") = false ∧ cweIDOf ["CWE-+5"] = 5) ∧
    (specIsUnsigned (specStripPrefix "CWE--1") = false ∧ cweIDOf ["CWE--1"] = 4294967295) := by
  decide

/-- C10: the record built for a non-empty group has the title of the first
finding, a colon and a blank, and the module name as summary, the score of the
first finding, and the URLs of its references in the same order and number;
for a group of the map the module name is the packageName of the first
finding. -/
theorem record_fields (L : TextLib) (p : Policy) (moduleName : String)
    (first : SnykVulnerability) (tail : List SnykVulnerability) :
    (∃ r p', buildVulnerability L p moduleName (first :: tail) = some (r, p') ∧
      r.Summary = first.Title ++ ": " ++ moduleName ∧
      r.Score = first.CVSSScore ∧
      r.References = first.References.map (·.URL) ∧
      r.References.length = first.References.length) ∧
    (∀ vs : List SnykVulnerability, ∀ e ∈ groupVulnerabilities vs, ∀ f ∈ e.2,
      ∃ head rest, f.2 = head :: rest ∧ head.PackageName = f.1) := by
  constructor
  · refine ⟨_, _, rfl, rfl, rfl, referenceURLs_eq_map _, ?_⟩
    show (referenceURLs first.References).length = first.References.length
    rw [referenceURLs_eq_map, List.length_map]
  · intro vs e he f hf
    have hne : f.2 ≠ [] := ((groupInv_groupVulnerabilities vs).2 e he).2 f hf
    obtain ⟨head, rest, hfr⟩ := List.exists_cons_of_ne_nil hne
    refine ⟨head, rest, hfr, ?_⟩
    have hm : head ∈ vs.filter (inGroup e.1 f.1) := by
      rw [← mem_group_eq_filter vs e he f hf, hfr]
      exact List.mem_cons_self _ _
    have hi := (List.mem_filter.mp hm).2
    simp only [inGroup, Bool.and_eq_true, decide_eq_true_eq] at hi
    exact hi.2

/-! ## Lemmas on the regular expressions -/

theorem reMatch_nil (s : List Char) : reMatch [] s = some 0 := by
  cases s <;> rfl

theorem reMatch_lit_nil (c : Char) (rest : List ReItem) :
    reMatch (ReItem.lit c :: rest) [] = none := rfl

theorem reMatch_lit_cons (c : Char) (rest : List ReItem) (d : Char) (t : List Char) :
    reMatch (ReItem.lit c :: rest) (d :: t) =
      if foldEq c d then (reMatch rest t).map (· + 1) else none := rfl

theorem reMatch_lits_extend (w : List Char) (u t : List Char) (n : Nat)
    (h : reMatch (w.map ReItem.lit) u = some n) (hp : u <+: t) :
    reMatch (w.map ReItem.lit) t = some n := by
  induction w generalizing u t n with
  | nil =>
    rw [List.map_nil, reMatch_nil] at h
    rw [List.map_nil, reMatch_nil]
    exact h
  | cons c w ih =>
    cases u with
    | nil => simp [reMatch_lit_nil] at h
    | cons d u1 =>
      obtain ⟨r, hr⟩ := hp
      subst hr
      simp only [List.map_cons, List.cons_append, reMatch_lit_cons] at h ⊢
      by_cases hf : foldEq c d = true
      · simp only [hf, if_true] at h ⊢
        cases hm : reMatch (w.map ReItem.lit) u1 with
        | none => simp [hm] at h
        | some m =>
          rw [ih u1 (u1 ++ r) m hm (List.prefix_append _ _)]
          rw [hm] at h
          exact h
      · simp [hf] at h

theorem findIndex_eq_none (re : List ReItem) (s : List Char) (h : findIndex re s = none) :
    ∀ t, t <:+ s → reMatch re t = none := by
  induction s with
  | nil =>
    intro t ht
    have : t = [] := List.eq_nil_of_suffix_nil ht
    subst this
    simpa [findIndex] using h
  | cons c s ih =>
    intro t ht
    simp only [findIndex] at h
    cases hm : reMatch re (c :: s) with
    | some n => simp [hm] at h
    | none =>
      simp only [hm, Option.map_eq_none'] at h
      rcases List.suffix_cons_iff.mp ht with ht1 | ht1
      · rw [ht1]
        exact hm
      · exact ih h t ht1

theorem findIndex_of_noMatch (re : List ReItem) (s : List Char)
    (h : ∀ t, t <:+ s → reMatch re t = none) : findIndex re s = none := by
  induction s with
  | nil => simp [findIndex, h [] (List.suffix_refl _)]
  | cons c s ih =>
    simp only [findIndex, h (c :: s) (List.suffix_refl _), Option.map_eq_none']
    exact ih fun t ht => h t (ht.trans (List.suffix_cons c s))

theorem findIndex_some (re : List ReItem) (s : List Char) (loc : Nat × Nat)
    (h : findIndex re s = some loc) :
    loc.1 ≤ loc.2 ∧ loc.1 ≤ s.length ∧ reMatch re (s.drop loc.1) = some (loc.2 - loc.1) ∧
      ∀ k, k < loc.1 → reMatch re (s.drop k) = none := by
  induction s generalizing loc with
  | nil =>
    simp only [findIndex, Option.map_eq_some'] at h
    obtain ⟨n, hn, hl⟩ := h
    subst hl
    simp [hn]
  | cons c s ih =>
    simp only [findIndex] at h
    cases hm : reMatch re (c :: s) with
    | some n =>
      simp only [hm, Option.some.injEq] at h
      subst h
      simp [hm]
    | none =>
      simp only [hm, Option.map_eq_some'] at h
      obtain ⟨l, hl, hloc⟩ := h
      subst hloc
      obtain ⟨h1, h2, h3, h4⟩ := ih l hl
      refine ⟨by simpa using h1, by simpa using h2, ?_, ?_⟩
      · simp only [List.drop_succ_cons]
        rw [h3]
        congr 1
        omega
      · intro k hk
        cases k with
        | zero => simpa using hm
        | succ k =>
          simp only [List.drop_succ_cons]
          exact h4 k (by omega)

theorem noMatch_within (w : List Char) (s mid : List Char)
    (h : ∀ t, t <:+ s → reMatch (w.map ReItem.lit) t = none) (hi : mid <:+: s) :
    ∀ t, t <:+ mid → reMatch (w.map ReItem.lit) t = none := by
  intro t ht
  obtain ⟨a, b, hab⟩ := hi
  obtain ⟨a1, ha1⟩ := ht
  cases hm : reMatch (w.map ReItem.lit) t with
  | none => rfl
  | some n =>
    have hs : (t ++ b) <:+ s := ⟨a ++ a1, by rw [← hab, ← ha1]; simp⟩
    have := reMatch_lits_extend w t (t ++ b) n hm (List.prefix_append _ _)
    rw [h _ hs] at this
    exact absurd this (by simp)

theorem noMatch_take (w : List Char) (hw : w ≠ []) (s : List Char) (i : Nat)
    (h : ∀ k, k < i → reMatch (w.map ReItem.lit) (s.drop k) = none) :
    ∀ t, t <:+ s.take i → reMatch (w.map ReItem.lit) t = none := by
  intro t ht
  obtain ⟨a, ha⟩ := ht
  cases t with
  | nil =>
    obtain ⟨c, w1, hcw⟩ := List.exists_cons_of_ne_nil hw
    subst hcw
    rfl
  | cons d t1 =>
    cases hm : reMatch (w.map ReItem.lit) (d :: t1) with
    | none => rfl
    | some n =>
      have hlen : a.length + (t1.length + 1) = (s.take i).length := by
        rw [← ha]
        simp
      have hlt : a.length < i := by
        have := List.length_take_le i s
        omega
      have hdrop : s.drop a.length = (d :: t1) ++ s.drop i := by
        have hs : s = a ++ ((d :: t1) ++ s.drop i) := by
          conv_lhs => rw [← List.take_append_drop i s, ← ha]
          simp
        conv_lhs => rw [hs]
        simp
      have := reMatch_lits_extend w (d :: t1) (s.drop a.length) n hm
        (by rw [hdrop]; exact List.prefix_append _ _)
      rw [h _ hlt] at this
      exact absurd this (by simp)

theorem trimNewline_within (s : List Char) : trimNewline s <:+: s := by
  have h1 : trimNewline s <+: s.dropWhile (· = '\n') := List.rdropWhile_prefix _ _
  exact h1.isInfix.trans (List.dropWhile_suffix _).isInfix

theorem trimNewline_head (s : List Char) : (trimNewline s).head? ≠ some '\n' := by
  intro h
  have h1 : trimNewline s <+: s.dropWhile (· = '\n') := List.rdropWhile_prefix _ _
  obtain ⟨r, hr⟩ := h1
  have h2 := List.head?_dropWhile_not (fun c : Char => decide (c = '\n')) s
  cases ht : trimNewline s with
  | nil => simp [ht] at h
  | cons c t =>
    rw [ht] at h hr
    simp only [List.head?_cons, Option.some.injEq] at h
    rw [← hr] at h2
    simp [h] at h2

theorem trimNewline_getLast (s : List Char) : (trimNewline s).getLast? ≠ some '\n' := by
  intro h
  have hne : trimNewline s ≠ [] := by
    intro hn
    simp [hn] at h
  have h1 := List.rdropWhile_last_not (fun c : Char => decide (c = '\n'))
    (s.dropWhile (· = '\n')) hne
  rw [List.getLast?_eq_getLast _ hne] at h
  simp only [Option.some.injEq] at h
  apply h1
  simpa using h

theorem noMatch_h2_within (s mid : List Char)
    (h : findIndex regexpNextH2TagBegin s = none) (hi : mid <:+: s) :
    findIndex regexpNextH2TagBegin mid = none := by
  apply findIndex_of_noMatch
  exact noMatch_within "<h2".data s mid (findIndex_eq_none _ s h) hi

theorem h2_not_within (s : List Char) (h : findIndex regexpNextH2TagBegin s = none)
    (pre suf : List Char) (c : Char) (hc : c = 'h' ∨ c = 'H') :
    s ≠ pre ++ '<' :: c :: '2' :: suf := by
  intro hs
  have hm := findIndex_eq_none _ s h ('<' :: c :: '2' :: suf) ⟨pre, hs.symm⟩
  have hlit : regexpNextH2TagBegin = [ReItem.lit '<', ReItem.lit 'h', ReItem.lit '2'] := rfl
  rw [hlit] at hm
  rcases hc with hc | hc <;> subst hc <;>
    simp [reMatch_lit_cons, reMatch_nil, foldEq] at hm

/-- The section `extractOverview` keeps of the text after the heading. -/
theorem overview_section_split (after : List Char) :
    ∃ sect rest, after = sect ++ rest ∧
      (rest = [] ∨ ∃ n, reMatch regexpNextH2TagBegin rest = some n) ∧
      findIndex regexpNextH2TagBegin sect = none ∧
      (match findIndex regexpNextH2TagBegin after with
        | some locationTagNextH2 => after.take locationTagNextH2.1
        | none => after) = sect := by
  cases hf : findIndex regexpNextH2TagBegin after with
  | none => exact ⟨after, [], by simp, Or.inl rfl, hf, rfl⟩
  | some l =>
    obtain ⟨_, _, h3, h4⟩ := findIndex_some _ after l hf
    refine ⟨after.take l.1, after.drop l.1, (List.take_append_drop _ _).symm,
      Or.inr ⟨_, h3⟩, ?_, rfl⟩
    apply findIndex_of_noMatch
    exact noMatch_take "<h2".data (by decide) after l.1 h4

theorem singleton_append_filter {α : Type} (q : α → Bool) (a : α) (l : List α)
    (h : q a = true) : [a] ++ l.filter q = (a :: l).filter q := by
  simp [List.filter_cons, h]

theorem filter_eq_filter_cons {α : Type} (q : α → Bool) (a : α) (l : List α)
    (h : q a = false) : l.filter q = (a :: l).filter q := by
  simp [List.filter_cons, h]

theorem foldl_recommendations (L : TextLib) (p : Policy) (lines : List (List Char))
    (init : List String) :
    lines.foldl
      (fun res line =>
        if 0 < line.length then
          let aux : String := ⟨trimNewline (L.sanitize p ⟨line⟩).data⟩
          if 0 < aux.length then res ++ [aux] else res
        else res)
      init =
    init ++ (((lines.filter fun line => decide (0 < line.length)).map fun line =>
      (⟨trimNewline (L.sanitize p ⟨line⟩).data⟩ : String)).filter fun aux =>
        decide (0 < aux.length)) := by
  induction lines generalizing init with
  | nil => simp
  | cons line t ih =>
    rw [List.foldl_cons, ih]
    by_cases h1 : 0 < line.length
    · rw [if_pos h1, List.filter_cons_of_pos (by simpa using h1), List.map_cons]
      dsimp only
      by_cases h2 : 0 < (⟨trimNewline (L.sanitize p ⟨line⟩).data⟩ : String).length
      · rw [if_pos h2, List.append_assoc]
        congr 1
        exact singleton_append_filter (fun aux : String => decide (0 < aux.length)) _ _
          (decide_eq_true h2)
      · rw [if_neg h2]
        congr 1
        exact filter_eq_filter_cons (fun aux : String => decide (0 < aux.length)) _ _
          (decide_eq_false h2)
    · rw [if_neg h1, List.filter_cons_of_neg (by rw [decide_eq_false h1]; exact Bool.false_ne_true)]

theorem remediation_section_split (after : List Char) :
    ∃ sect rest, after = sect ++ rest ∧
      (rest = [] ∨ ∃ n, reMatch regexpRemediationTagEnd rest = some n) ∧
      (∀ k, k < sect.length → reMatch regexpRemediationTagEnd (after.drop k) = none) ∧
      (match findIndex regexpRemediationTagEnd after with
        | some locationTagRemediationsEnd => after.take locationTagRemediationsEnd.1
        | none => after) = sect := by
  cases hf : findIndex regexpRemediationTagEnd after with
  | none =>
    refine ⟨after, [], by simp, Or.inl rfl, ?_, rfl⟩
    intro k _
    exact findIndex_eq_none _ after hf _ (List.drop_suffix k after)
  | some l =>
    obtain ⟨_, h2, h3, h4⟩ := findIndex_some _ after l hf
    refine ⟨after.take l.1, after.drop l.1, (List.take_append_drop _ _).symm,
      Or.inr ⟨_, h3⟩, ?_, rfl⟩
    intro k hk
    apply h4
    rw [List.length_take] at hk
    omega

theorem allowAttrsOnElements_idem (p : Policy) (attr el : String) :
    allowAttrsOnElements (allowAttrsOnElements p attr el) attr el =
      allowAttrsOnElements p attr el := by
  unfold allowAttrsOnElements
  by_cases h : (el, attr) ∈ p
  · simp [h]
  · simp [h]

theorem extractOverview_policy (L : TextLib) (p : Policy) (buf : String) :
    (extractOverview L p buf).2 = allowAttrsOnElements p "id" "h2" := by
  unfold extractOverview
  simp only
  split <;> rfl

theorem extractOverview_allow (L : TextLib) (p : Policy) (buf : String) :
    extractOverview L (allowAttrsOnElements p "id" "h2") buf = extractOverview L p buf := by
  unfold extractOverview
  simp only [allowAttrsOnElements_idem]

theorem buildVulnerability_allow (L : TextLib) (p : Policy) (moduleName : String)
    (snykIssues : List SnykVulnerability) :
    buildVulnerability L (allowAttrsOnElements p "id" "h2") moduleName snykIssues =
      buildVulnerability L p moduleName snykIssues := by
  cases snykIssues with
  | nil => rfl
  | cons first tail => simp only [buildVulnerability, extractOverview_allow]

theorem buildVulnerability_policy (L : TextLib) (p : Policy) (moduleName : String)
    (snykIssues : List SnykVulnerability) (r : Vulnerability) (p1 : Policy)
    (h : buildVulnerability L p moduleName snykIssues = some (r, p1)) :
    p1 = allowAttrsOnElements p "id" "h2" := by
  cases snykIssues with
  | nil => simp [buildVulnerability] at h
  | cons first tail =>
    simp only [buildVulnerability, Option.some.injEq, Prod.mk.injEq] at h
    rw [← h.2, extractOverview_policy]

theorem emitVulns_allow (L : TextLib) (gs : List (String × List SnykVulnerability))
    (p : Policy) (rs : List Vulnerability) (p1 : Policy)
    (h : emitVulns L p gs = some (rs, p1)) :
    (p1 = p ∨ p1 = allowAttrsOnElements p "id" "h2") ∧
      ∃ p2, emitVulns L (allowAttrsOnElements p "id" "h2") gs = some (rs, p2) := by
  induction gs generalizing p rs p1 with
  | nil =>
    simp only [emitVulns, Option.some.injEq, Prod.mk.injEq] at h
    exact ⟨Or.inl h.2.symm, allowAttrsOnElements p "id" "h2", by simp [emitVulns, h.1]⟩
  | cons g t ih =>
    obtain ⟨name, issues⟩ := g
    simp only [emitVulns, buildVulnerability_allow] at h ⊢
    cases hb : buildVulnerability L p name issues with
    | none => simp [hb] at h
    | some b =>
      obtain ⟨v, q⟩ := b
      have hq := buildVulnerability_policy L p name issues v q hb
      subst hq
      simp only [hb] at h ⊢
      cases he : emitVulns L (allowAttrsOnElements p "id" "h2") t with
      | none => simp [he] at h
      | some o =>
        obtain ⟨vs, q2⟩ := o
        simp only [he, Option.some.injEq, Prod.mk.injEq] at h
        obtain ⟨hq1, _⟩ := ih _ vs q2 he
        obtain ⟨h1, h2⟩ := h
        subst h1
        subst h2
        refine ⟨Or.inr ?_, q2, rfl⟩
        rcases hq1 with hq1 | hq1
        · exact hq1
        · rw [hq1, allowAttrsOnElements_idem]

theorem mem_set_or {V : Type} (m : GoMap V) (k : String) (v : V) (e : String × V)
    (h : e ∈ m.set k v) : e = (k, v) ∨ e ∈ m := by
  induction m with
  | nil =>
    simp [GoMap.set] at h
    exact Or.inl h
  | cons e0 t ih =>
    obtain ⟨x, y⟩ := e0
    by_cases hx : x = k
    · simp only [GoMap.set, hx, if_true, List.mem_cons] at h
      rcases h with h | h
      · exact Or.inl h
      · exact Or.inr (List.mem_cons_of_mem _ h)
    · simp only [GoMap.set, if_neg hx, List.mem_cons] at h
      rcases h with h | h
      · exact Or.inr (by simp [h])
      · rcases ih h with h1 | h1
        · exact Or.inl h1
        · exact Or.inr (List.mem_cons_of_mem _ h1)

theorem set_ne_nil {V : Type} (m : GoMap V) (k : String) (v : V) : m.set k v ≠ [] := by
  cases m with
  | nil => simp [GoMap.set]
  | cons e t =>
    obtain ⟨x, y⟩ := e
    simp only [GoMap.set]
    split <;> simp

theorem inner_ne_nil_foldl (vs : List SnykVulnerability) (m : GroupMap)
    (h : ∀ e ∈ m, e.2 ≠ []) : ∀ e ∈ vs.foldl groupStep m, e.2 ≠ [] := by
  induction vs generalizing m with
  | nil => exact h
  | cons v t ih =>
    rw [List.foldl_cons]
    apply ih
    by_cases hl : v.Type_ = "license"
    · rw [groupStep_license m v hl]
      exact h
    · rw [groupStep_notLicense m v hl]
      intro e he
      rcases mem_set_or _ _ _ e he with he1 | he1
      · rw [he1]
        exact set_ne_nil _ _ _
      · exact h e he1

/-! ## Lemmas on the shape of a rendered line -/

theorem pathStep_succ (v w : SnykVulnerability) (a : String) (hv : v.From = a :: w.From)
    (str : String) (i : Nat) : pathStep v str (i + 1) = pathStep w str i := by
  unfold pathStep
  have hc : (((i + 1 : Nat) : Int) < (v.From.length : Int) - 2) ↔
      ((i : Int) < (w.From.length : Int) - 2) := by
    rw [hv, List.length_cons]
    push_cast
    omega
  by_cases h : (i : Int) < (w.From.length : Int) - 2
  · rw [if_pos h, if_pos (hc.mpr h), hv, List.getD_cons_succ]
  · rw [if_neg h, if_neg (fun h1 => h (hc.mp h1)), hv, List.getD_cons_succ]

theorem pathBody_cons (v w : SnykVulnerability) (a : String) (hv : v.From = a :: w.From) :
    pathBody v = a ++ (if 2 ≤ w.From.length then " > " else "") ++ pathBody w := by
  have hlen : v.From.length = w.From.length + 1 := by rw [hv, List.length_cons]
  unfold pathBody
  rw [hlen, List.range_succ_eq_map, List.foldl_cons, List.foldl_map]
  have hf : (fun (str : String) (i : Nat) => pathStep v str (Nat.succ i)) = pathStep w := by
    funext str i
    exact pathStep_succ v w a hv str i
  rw [hf, pathStep_foldl]
  congr 1
  unfold pathStep
  have hc : (((0 : Nat) : Int) < (v.From.length : Int) - 2) ↔ 2 ≤ w.From.length := by
    rw [hlen]
    push_cast
    omega
  by_cases h : 2 ≤ w.From.length
  · rw [if_pos h, if_pos (hc.mpr h), hv, List.getD_cons_zero]
    simp
  · rw [if_neg h, if_neg (fun h1 => h (hc.mp h1)), hv, List.getD_cons_zero]
    simp

theorem pathBody_nil (v : SnykVulnerability) (hv : v.From = []) : pathBody v = "" := by
  unfold pathBody
  rw [hv]
  rfl

theorem pathBody_snoc (init : List String) (last : String) :
    ∀ v : SnykVulnerability, v.From = init ++ [last] → pathBody v = joinSep init ++ last := by
  induction init with
  | nil =>
    intro v hv
    rw [pathBody_cons v { v with From := [] } last (by simpa using hv),
      pathBody_nil _ rfl]
    simp [joinSep]
  | cons a t ih =>
    intro v hv
    rw [pathBody_cons v { v with From := t ++ [last] } a (by simpa using hv),
      ih { v with From := t ++ [last] } rfl]
    cases t with
    | nil => simp [joinSep]
    | cons b u => simp [joinSep, String.append_assoc]

theorem pathBody_length (l : List String) :
    ∀ v : SnykVulnerability, v.From = l →
      (pathBody v).length = (l.map String.length).sum + 3 * (l.length - 2) := by
  induction l with
  | nil =>
    intro v hv
    rw [pathBody_nil v hv]
    rfl
  | cons a t ih =>
    intro v hv
    rw [pathBody_cons v { v with From := t } a hv, String.length_append, String.length_append,
      ih { v with From := t } rfl]
    simp only [List.map_cons, List.sum_cons, List.length_cons]
    by_cases h2 : 2 ≤ t.length
    · rw [if_pos h2]
      have : (" > " : String).length = 3 := by decide
      rw [this]
      omega
    · rw [if_neg h2]
      have : ("" : String).length = 0 := by decide
      rw [this]
      omega

theorem pathStep_foldl_pieces (v : SnykVulnerability) (l : List Nat) :
    l.foldl (pathStep v) "" =
      (l.map fun i => v.From.getD i "" ++
        if (i : Int) < (v.From.length : Int) - 2 then " > " else "").foldr (· ++ ·) "" := by
  induction l with
  | nil => rfl
  | cons i t ih =>
    rw [List.foldl_cons, pathStep_foldl, ih]
    simp only [List.map_cons, List.foldr_cons]
    congr 1
    unfold pathStep
    split <;> simp

theorem filter_lt_range (n k : Nat) :
    (List.range n).filter (fun i => decide (i < k)) = List.range (min k n) := by
  induction n with
  | zero => simp
  | succ n ih =>
    rw [List.range_succ, List.filter_append, ih]
    by_cases h : n < k
    · have h1 : min k n = n := by omega
      have h2 : min k (n + 1) = n + 1 := by omega
      rw [h1, h2, List.range_succ]
      simp [h]
    · have h1 : min k n = k := by omega
      have h2 : min k (n + 1) = k := by omega
      rw [h1, h2]
      simp [h]

theorem separator_count (n : Nat) :
    ((List.range n).filter fun (i : Nat) => decide ((i : Int) < (n : Int) - 2)).length =
      n - 2 := by
  have hf : (fun i : Nat => decide ((i : Int) < (n : Int) - 2)) =
      fun i => decide (i < n - 2) := by
    funext i
    congr 1
    apply propext
    omega
  rw [hf, filter_lt_range, List.length_range]
  omega

theorem intercalate_go (sep : String) (l : List String) :
    ∀ acc : String, String.intercalate.go acc sep l =
      acc ++ (l.map fun x => sep ++ x).foldr (· ++ ·) "" := by
  induction l with
  | nil =>
    intro acc
    simp [String.intercalate.go]
  | cons a t ih =>
    intro acc
    simp [String.intercalate.go, ih, String.append_assoc]

theorem joinSep_cons (t : List String) :
    ∀ a : String, joinSep (a :: t) = a ++ (t.map fun x => " > " ++ x).foldr (· ++ ·) "" := by
  induction t with
  | nil =>
    intro a
    simp [joinSep]
  | cons b u ih =>
    intro a
    simp [joinSep, ih, String.append_assoc]

theorem joinSep_eq_intercalate (l : List String) : joinSep l = " > ".intercalate l := by
  cases l with
  | nil => rfl
  | cons a t => rw [joinSep_cons, String.intercalate, intercalate_go]

theorem atoi_range (s : String) (v : Int) (h : atoi s = some v) :
    -(2 : Int) ^ 63 ≤ v ∧ v < (2 : Int) ^ 63 := by
  unfold atoi at h
  simp only at h
  split_ifs at h with h1 h2 h3 h4
  · simp only [Option.some.injEq] at h
    subst h
    have : ((digitsValue _ : Nat) : Int) ≤ ((2 ^ 63 : Nat) : Int) := Int.ofNat_le.mpr h3
    push_cast at this
    constructor
    · omega
    · have hp : (0 : Int) < 2 ^ 63 := by norm_num
      omega
  · simp only [Option.some.injEq] at h
    subst h
    have : ((digitsValue _ : Nat) : Int) < ((2 ^ 63 : Nat) : Int) := Int.ofNat_lt.mpr h4
    push_cast at this
    constructor
    · have hp : (0 : Int) < 2 ^ 63 := by norm_num
      omega
    · exact this

/-! ## The claims on the extractors, the policy and totality -/

theorem foldl_slice_elems (L : TextLib) (p : Policy) (lines : List (List Char))
    (init : List String) :
    lines.foldl
      (fun (res : GoSlice) line =>
        if 0 < line.length then
          let aux : String := ⟨trimNewline (L.sanitize p ⟨line⟩).data⟩
          if 0 < aux.length then res.append aux else res
        else res)
      (GoSlice.elems init) =
    GoSlice.elems (lines.foldl
      (fun res line =>
        if 0 < line.length then
          let aux : String := ⟨trimNewline (L.sanitize p ⟨line⟩).data⟩
          if 0 < aux.length then res ++ [aux] else res
        else res)
      init) := by
  induction lines generalizing init with
  | nil => rfl
  | cons line t ih =>
    rw [List.foldl_cons, List.foldl_cons]
    by_cases h1 : 0 < line.length
    · rw [if_pos h1, if_pos h1]
      dsimp only
      by_cases h2 : 0 < (⟨trimNewline (L.sanitize p ⟨line⟩).data⟩ : String).length
      · rw [if_pos h2, if_pos h2]
        exact ih _
      · rw [if_neg h2, if_neg h2]
        exact ih _
    · rw [if_neg h1, if_neg h1]
      exact ih _

theorem extractRecommendationsSlice_eq (L : TextLib) (p : Policy) (buf : String) :
    extractRecommendationsSlice L p buf = GoSlice.elems (extractRecommendations L p buf) := by
  unfold extractRecommendationsSlice extractRecommendations
  dsimp only
  cases findIndex regexpRemediationTagBegin (L.toHTML (normalizeBuf buf)).data with
  | none => rfl
  | some loc => exact foldl_slice_elems L p _ []

/-- C11, as the code has it: when the HTML that `extractOverview` searches,
which is the rendering of the description after sanitization, holds no match of
the overview heading pattern, the function returns the empty string; when the
rendered HTML holds no match of the remediation heading pattern,
`extractRecommendations` returns the empty sequence, as a slice that is not
nil, under every policy.  Both functions return a value in every case, and the
slice `extractRecommendations` returns is never nil. -/
theorem missing_headings_empty (L : TextLib) (p : Policy) (buf : String) :
    (findIndex regexpOverviewTagBegin
        (L.sanitize (allowAttrsOnElements p "id" "h2") (L.toHTML (normalizeBuf buf))).data = none →
      (extractOverview L p buf).1 = "") ∧
    (findIndex regexpRemediationTagBegin (L.toHTML (normalizeBuf buf)).data = none →
      extractRecommendations L p buf = [] ∧
      extractRecommendationsSlice L p buf = GoSlice.elems []) ∧
    extractRecommendationsSlice L p buf ≠ GoSlice.nil := by
  refine ⟨?_, ?_, ?_⟩
  · intro h
    simp only [extractOverview, h]
  · intro h
    have he : extractRecommendations L p buf = [] := by
      simp only [extractRecommendations, h]
    exact ⟨he, by rw [extractRecommendationsSlice_eq, he]⟩
  · rw [extractRecommendationsSlice_eq]
    exact fun hn => GoSlice.noConfusion hn

/-- C11 at a description without headings. -/
theorem missing_headings_empty_witness :
    (findIndex regexpOverviewTagBegin
        (exampleLib.sanitize (allowAttrsOnElements strictPolicy "id" "h2")
          (exampleLib.toHTML (normalizeBuf "no heading here"))).data = none ∧
      (extractOverview exampleLib strictPolicy "no heading here").1 = "") ∧
    (findIndex regexpRemediationTagBegin
        (exampleLib.toHTML (normalizeBuf "no heading here")).data = none ∧
      extractRecommendations exampleLib strictPolicy "no heading here" = [] ∧
      extractRecommendationsSlice exampleLib strictPolicy "no heading here" =
        GoSlice.elems []) :=
  ⟨⟨by decide, (missing_headings_empty exampleLib strictPolicy "no heading here").1 (by decide)⟩,
    ⟨by decide,
      (missing_headings_empty exampleLib strictPolicy "no heading here").2.1 (by decide)⟩⟩

/-- C11 fails as stated: the rendering of the description with the quoted
heading holds no match of the overview heading pattern, which asks for double
quotes, but the sanitized text that `extractOverview` searches holds one, and
the function returns Hello, not the empty string. -/
theorem overview_found_after_sanitizing :
    findIndex regexpOverviewTagBegin
        (quotedExampleLib.toHTML (normalizeBuf quotedExampleDescription)).data = none ∧
    findIndex regexpOverviewTagBegin
        (quotedExampleLib.sanitize (allowAttrsOnElements strictPolicy "id" "h2")
          (quotedExampleLib.toHTML (normalizeBuf quotedExampleDescription))).data =
      some (0, 31) ∧
    (extractOverview quotedExampleLib strictPolicy quotedExampleDescription).1 = "Hello" ∧
    (extractOverview quotedExampleLib strictPolicy quotedExampleDescription).1 ≠ "" := by
  decide

/-- C12: when the sanitized HTML holds an overview heading, the text after the
end of the first match splits into a section without any `<h2` and a rest that
is empty or starts with `<h2`, and `extractOverview` returns that section with
the newlines at both ends removed; the result holds no `<h2` in any letter case
and neither starts nor ends with a newline.  For the description of the
overview example, given the outputs of the libraries on it, the result is
Hello. -/
theorem extractOverview_section (L : TextLib) (p : Policy) (buf : String) (loc : Nat × Nat)
    (h : findIndex regexpOverviewTagBegin
      (L.sanitize (allowAttrsOnElements p "id" "h2") (L.toHTML (normalizeBuf buf))).data =
        some loc) :
    (∃ sect rest,
      (L.sanitize (allowAttrsOnElements p "id" "h2") (L.toHTML (normalizeBuf buf))).data.drop
          loc.2 = sect ++ rest ∧
      (rest = [] ∨ ∃ n, reMatch regexpNextH2TagBegin rest = some n) ∧
      findIndex regexpNextH2TagBegin sect = none ∧
      (extractOverview L p buf).1 = ⟨trimNewline sect⟩) ∧
    findIndex regexpNextH2TagBegin (extractOverview L p buf).1.data = none ∧
    (∀ (pre suf : List Char) (c : Char), c = 'h' ∨ c = 'H' →
      (extractOverview L p buf).1.data ≠ pre ++ '<' :: c :: '2' :: suf) ∧
    (extractOverview L p buf).1.data.head? ≠ some '\n' ∧
    (extractOverview L p buf).1.data.getLast? ≠ some '\n' ∧
    (∀ (L1 : TextLib) (p1 : Policy),
      L1.sanitize (allowAttrsOnElements p1 "id" "h2")
          (L1.toHTML (normalizeBuf overviewExampleDescription)) =
        "<h2 id=\"overview\">Overview</h2>\n\nHello\n\n<h2 id=\"details\">Details</h2>\n\nX\n" →
      (extractOverview L1 p1 overviewExampleDescription).1 = "Hello") := by
  obtain ⟨sect, rest, hsplit, hrest, hnone, hsect⟩ := overview_section_split
    ((L.sanitize (allowAttrsOnElements p "id" "h2") (L.toHTML (normalizeBuf buf))).data.drop
      loc.2)
  have hres : (extractOverview L p buf).1 = ⟨trimNewline sect⟩ := by
    simp only [extractOverview, h, hsect]
  have hno : findIndex regexpNextH2TagBegin (extractOverview L p buf).1.data = none := by
    rw [hres]
    exact noMatch_h2_within sect _ hnone (trimNewline_within sect)
  refine ⟨⟨sect, rest, hsplit, hrest, hnone, hres⟩, hno, ?_, ?_, ?_, ?_⟩
  · intro pre suf c hc
    exact h2_not_within _ hno pre suf c hc
  · rw [hres]
    exact trimNewline_head sect
  · rw [hres]
    exact trimNewline_getLast sect
  · intro L1 p1 h1
    unfold extractOverview
    simp only [h1]
    rfl

/-- C12 at the overview example. -/
theorem extractOverview_section_witness :
    findIndex regexpOverviewTagBegin
      (overviewExampleLib.sanitize (allowAttrsOnElements strictPolicy "id" "h2")
        (overviewExampleLib.toHTML (normalizeBuf overviewExampleDescription))).data =
      some (0, 31) ∧
    (extractOverview overviewExampleLib strictPolicy overviewExampleDescription).1.data.head? ≠
      some '\n' :=
  ⟨by decide,
    (extractOverview_section overviewExampleLib strictPolicy overviewExampleDescription (0, 31)
      (by decide)).2.2.2.1⟩

/-- C13: when the rendered HTML holds a remediation heading, the text after the
end of the first match splits into a section in which no match of the pattern
of line 133 starts and a rest that is empty or starts with such a match, and
`extractRecommendations` returns, in order, the sanitized and newline-trimmed
non-empty lines of the section that are non-empty after trimming; every
returned element is non-empty and neither starts nor ends with a newline.  For
the description of the remediation example, given the outputs of the libraries
on it, the result is the one line Upgrade to 2.0. -/
theorem extractRecommendations_lines (L : TextLib) (p : Policy) (buf : String)
    (loc : Nat × Nat)
    (h : findIndex regexpRemediationTagBegin (L.toHTML (normalizeBuf buf)).data = some loc) :
    (∃ sect rest,
      (L.toHTML (normalizeBuf buf)).data.drop loc.2 = sect ++ rest ∧
      (rest = [] ∨ ∃ n, reMatch regexpRemediationTagEnd rest = some n) ∧
      (∀ k, k < sect.length → reMatch regexpRemediationTagEnd
        (((L.toHTML (normalizeBuf buf)).data.drop loc.2).drop k) = none) ∧
      extractRecommendations L p buf =
        (((splitNewline sect).filter fun line => decide (0 < line.length)).map fun line =>
          (⟨trimNewline (L.sanitize p ⟨line⟩).data⟩ : String)).filter fun aux =>
            decide (0 < aux.length)) ∧
    (∀ r ∈ extractRecommendations L p buf,
      r ≠ "" ∧ r.data.head? ≠ some '\n' ∧ r.data.getLast? ≠ some '\n') ∧
    (∀ (L1 : TextLib) (p1 : Policy),
      L1.toHTML (normalizeBuf remediationExampleDescription) =
        "<h2 id=\"remediation\">Remediation</h2>\n\n<p><script>bad()</script>Upgrade to 2.0</p>\n\n<h2 id=\"references\">References</h2>\n\n<p>&hellip;</p>\n" →
      L1.sanitize p1 "<p><script>bad()</script>Upgrade to 2.0</p>" = "Upgrade to 2.0" →
      extractRecommendations L1 p1 remediationExampleDescription = ["Upgrade to 2.0"]) := by
  obtain ⟨sect, rest, hsplit, hrest, hnone, hsect⟩ := remediation_section_split
    ((L.toHTML (normalizeBuf buf)).data.drop loc.2)
  have hres : extractRecommendations L p buf =
      (((splitNewline sect).filter fun line => decide (0 < line.length)).map fun line =>
        (⟨trimNewline (L.sanitize p ⟨line⟩).data⟩ : String)).filter fun aux =>
          decide (0 < aux.length) := by
    simp only [extractRecommendations, h, hsect]
    rw [foldl_recommendations]
    simp
  refine ⟨⟨sect, rest, hsplit, hrest, hnone, hres⟩, ?_, ?_⟩
  · intro r hr
    rw [hres] at hr
    obtain ⟨hr1, hr2⟩ := List.mem_filter.mp hr
    obtain ⟨line, _, hline⟩ := List.mem_map.mp hr1
    refine ⟨?_, ?_, ?_⟩
    · intro he
      rw [he] at hr2
      exact absurd hr2 (by decide)
    · rw [← hline]
      exact trimNewline_head _
    · rw [← hline]
      exact trimNewline_getLast _
  · intro L1 p1 h1 h2
    unfold extractRecommendations
    simp only [h1]
    have hs : L1.sanitize p1 ⟨"<p><script>bad()</script>Upgrade to 2.0</p>".data⟩ =
        "Upgrade to 2.0" := h2
    have hfind : findIndex regexpRemediationTagBegin
        "<h2 id=\"remediation\">Remediation</h2>\n\n<p><script>bad()</script>Upgrade to 2.0</p>\n\n<h2 id=\"references\">References</h2>\n\n<p>&hellip;</p>\n".data =
        some (0, 37) := by decide
    simp only [hfind]
    have hsplit2 : splitNewline
        (match findIndex regexpRemediationTagEnd
            (List.drop 37
              "<h2 id=\"remediation\">Remediation</h2>\n\n<p><script>bad()</script>Upgrade to 2.0</p>\n\n<h2 id=\"references\">References</h2>\n\n<p>&hellip;</p>\n".data) with
          | some locationTagRemediationsEnd =>
            List.take locationTagRemediationsEnd.1
              (List.drop 37
                "<h2 id=\"remediation\">Remediation</h2>\n\n<p><script>bad()</script>Upgrade to 2.0</p>\n\n<h2 id=\"references\">References</h2>\n\n<p>&hellip;</p>\n".data)
          | none =>
            List.drop 37
              "<h2 id=\"remediation\">Remediation</h2>\n\n<p><script>bad()</script>Upgrade to 2.0</p>\n\n<h2 id=\"references\">References</h2>\n\n<p>&hellip;</p>\n".data) =
        [[], [], "<p><script>bad()</script>Upgrade to 2.0</p>".data, [], []] := by decide
    rw [hsplit2]
    simp only [List.foldl_cons, List.foldl_nil, List.length_nil, Nat.lt_irrefl, if_false]
    rw [hs]
    rfl

/-- C13 at the remediation example. -/
theorem extractRecommendations_lines_witness :
    findIndex regexpRemediationTagBegin
      (remediationExampleLib.toHTML (normalizeBuf remediationExampleDescription)).data =
      some (0, 37) ∧
    (∀ r ∈ extractRecommendations remediationExampleLib strictPolicy
        remediationExampleDescription,
      r ≠ "" ∧ r.data.head? ≠ some '\n' ∧ r.data.getLast? ≠ some '\n') :=
  ⟨by decide,
    (extractRecommendations_lines remediationExampleLib strictPolicy
      remediationExampleDescription (0, 37) (by decide)).2.1⟩

/-- C14 at the failing input: a call of `extractOverview` under the strict
policy leaves the shared policy changed, with `id` on `h2` let through, and the
record construction hands this changed policy to `extractRecommendations`. -/
theorem extractOverview_changes_policy (L : TextLib) (buf : String) :
    (extractOverview L strictPolicy buf).2 = [("h2", "id")] ∧
    (extractOverview L strictPolicy buf).2 ≠ strictPolicy ∧
    (∀ (moduleName : String) (first : SnykVulnerability) (tail : List SnykVulnerability),
      ∃ r, buildVulnerability L strictPolicy moduleName (first :: tail) =
          some (r, [("h2", "id")]) ∧
        r.Recommendations = extractRecommendations L [("h2", "id")] first.Description) := by
  have hp : (extractOverview L strictPolicy buf).2 = [("h2", "id")] := by
    rw [extractOverview_policy]
    rfl
  refine ⟨hp, ?_, ?_⟩
  · rw [hp]
    simp [strictPolicy]
  · intro moduleName first tail
    have hq : (extractOverview L strictPolicy first.Description).2 = [("h2", "id")] := by
      rw [extractOverview_policy]
      rfl
    have h0 : ∃ r p1, buildVulnerability L strictPolicy moduleName (first :: tail) =
        some (r, p1) ∧ r.Recommendations = extractRecommendations L p1 first.Description ∧
        p1 = (extractOverview L strictPolicy first.Description).2 := ⟨_, _, rfl, rfl, rfl⟩
    obtain ⟨r, p1, h1, h2, h3⟩ := h0
    rw [hq] at h3
    subst h3
    exact ⟨r, h1, h2⟩

/-- C15: building the record of a non-empty group, and building it again under
the policy the first construction leaves behind, gives the same record in every
field, from every starting policy, the strict one included; the same holds for
the records of two runs in succession. -/
theorem buildVulnerability_idempotent (L : TextLib) (p : Policy) (moduleName : String)
    (first : SnykVulnerability) (tail : List SnykVulnerability) :
    (∃ r p1, buildVulnerability L p moduleName (first :: tail) = some (r, p1) ∧
      buildVulnerability L p1 moduleName (first :: tail) = some (r, p1)) ∧
    (∃ r p1, buildVulnerability L strictPolicy moduleName (first :: tail) = some (r, p1) ∧
      buildVulnerability L p1 moduleName (first :: tail) = some (r, p1)) ∧
    (∀ vs : List SnykVulnerability, ∃ rs p1 p2, run L p vs = some (rs, p1) ∧
      run L p1 vs = some (rs, p2)) := by
  have hb : ∀ q : Policy, ∃ r p1, buildVulnerability L q moduleName (first :: tail) =
      some (r, p1) ∧ buildVulnerability L p1 moduleName (first :: tail) = some (r, p1) := by
    intro q
    have h0 : ∃ r p1, buildVulnerability L q moduleName (first :: tail) = some (r, p1) :=
      ⟨_, _, rfl⟩
    obtain ⟨r, p1, h1⟩ := h0
    refine ⟨r, p1, h1, ?_⟩
    have hp1 := buildVulnerability_policy L q moduleName _ r p1 h1
    rw [hp1, buildVulnerability_allow]
    rw [← hp1]
    exact h1
  refine ⟨hb p, hb strictPolicy, ?_⟩
  intro vs
  obtain ⟨out, ho, _⟩ := run_total L p vs
  obtain ⟨rs, p1⟩ := out
  obtain ⟨hp1, p2, h2⟩ := emitVulns_allow L _ p rs p1 ho
  rcases hp1 with hp1 | hp1
  · exact ⟨rs, p1, p1, ho, by rw [hp1]; rw [hp1] at ho; exact ho⟩
  · refine ⟨rs, p1, p2, ho, ?_⟩
    rw [hp1]
    exact h2

/-- C16: no id of the map has an empty packageName map and no group is empty,
so the record of every group of the map is built, and the run returns its
records on every input sequence. -/
theorem pipeline_total (L : TextLib) (p : Policy) (vs : List SnykVulnerability) :
    (∀ e ∈ groupVulnerabilities vs, e.2 ≠ [] ∧
      ∀ f ∈ e.2, f.2 ≠ [] ∧
        ∀ q : Policy, ∃ r q1, buildVulnerability L q f.1 f.2 = some (r, q1)) ∧
    ∃ out, run L p vs = some out := by
  constructor
  · intro e he
    refine ⟨inner_ne_nil_foldl vs [] (by simp) e he, ?_⟩
    intro f hf
    have hne : f.2 ≠ [] := ((groupInv_groupVulnerabilities vs).2 e he).2 f hf
    refine ⟨hne, ?_⟩
    intro q
    obtain ⟨first, rest, hfr⟩ := List.exists_cons_of_ne_nil hne
    rw [hfr]
    exact ⟨_, _, rfl⟩
  · obtain ⟨out, ho, _⟩ := run_total L p vs
    exact ⟨out, ho⟩

/-- C17, as the code has it: every finding held by a group is a finding of the
input whose kind is not license, whatever else its kind is, and every finding
of the input whose kind is not license is held by the group of its key. -/
theorem groups_hold_non_license (vs : List SnykVulnerability) :
    (∀ e ∈ groupVulnerabilities vs, ∀ f ∈ e.2, ∀ v ∈ f.2, v.Type_ ≠ "license" ∧ v ∈ vs) ∧
    (∀ v ∈ vs, v.Type_ ≠ "license" →
      v ∈ groupAt (groupVulnerabilities vs) v.ID v.PackageName) := by
  constructor
  · intro e he f hf v hv
    rw [mem_group_eq_filter vs e he f hf, List.mem_filter] at hv
    have h := hv.2
    simp only [inGroup, notLicense, Bool.and_eq_true, decide_eq_true_eq] at h
    exact ⟨h.1.1, hv.1⟩
  · intro v hv hl
    rw [groupAt_groupVulnerabilities, List.mem_filter]
    exact ⟨hv, by simp [inGroup, notLicense, hl]⟩

/-- C17 fails as stated: a finding of kind vuln, which is not security, ends up
in the group of its key. -/
theorem group_holds_other_kind :
    groupAt (groupVulnerabilities [exampleFinding "SNYK-1" "vuln" "lodash" ["app", "lodash"]])
        "SNYK-1" "lodash" =
      [exampleFinding "SNYK-1" "vuln" "lodash" ["app", "lodash"]] ∧
    (exampleFinding "SNYK-1" "vuln" "lodash" ["app", "lodash"]).Type_ ≠ "security" := by
  decide

/-- C18: the line rendered for a finding is the heading, the body and a
newline, where the body is the concatenation over the indices i of the path of
the element i followed by the separator exactly when i < n-2 as signed
integers.  The body is empty for the empty path and, for a path with last
element, the other elements joined by the separator and then the last element
with nothing in front of it; the separator is written at n-2 indices (none
below two elements), which shows in the length of the body. -/
theorem createDetails_line_shape (v : SnykVulnerability) (init : List String)
    (last a b c : String) :
    (∀ w : SnykVulnerability, createDetails [w] = "Introduced through: " ++ pathBody w ++ "\n" ∧
      pathBody w = ((List.range w.From.length).map fun i => w.From.getD i "" ++
        if (i : Int) < (w.From.length : Int) - 2 then " > " else "").foldr (· ++ ·) "" ∧
      ((List.range w.From.length).filter fun (i : Nat) =>
        decide ((i : Int) < (w.From.length : Int) - 2)).length = w.From.length - 2 ∧
      (pathBody w).length = (w.From.map String.length).sum + 3 * (w.From.length - 2)) ∧
    pathBody { v with From := [] } = "" ∧
    pathBody { v with From := init ++ [last] } = joinSep init ++ last ∧
    joinSep init = " > ".intercalate init ∧
    pathBody { v with From := [a] } = a ∧
    pathBody { v with From := [a, b] } = a ++ b ∧
    pathBody { v with From := [a, b, c] } = a ++ " > " ++ b ++ c ∧
    createDetails [{ v with From := ["a", "b", "c"] }] = "Introduced through: a > bc\n" := by
  refine ⟨?_, pathBody_nil _ rfl, pathBody_snoc init last _ rfl, joinSep_eq_intercalate init,
    ?_, ?_, ?_, ?_⟩
  · intro w
    refine ⟨?_, pathStep_foldl_pieces w _, separator_count _, pathBody_length _ w rfl⟩
    rw [createDetails_cons, createDetails_nil, detailsStr_heading]
    simp
  · have := pathBody_snoc [] a { v with From := [a] } rfl
    simpa [joinSep] using this
  · have := pathBody_snoc [a] b { v with From := [a, b] } rfl
    simpa [joinSep] using this
  · have := pathBody_snoc [a, b] c { v with From := [a, b, c] } rfl
    simpa [joinSep, String.append_assoc] using this
  · rw [createDetails_cons, createDetails_nil, detailsStr_heading,
      pathBody_snoc ["a", "b"] "c" _ rfl]
    decide

/-- C19: when the first CWE identifier with every occurrence of `CWE-` removed
parses as the signed integer v, which then lies in the range of a 64-bit
integer, the CWEID of the record is v modulo 2^32; a v that is a multiple of
2^32 leaves the CWEID at the value it has without any identifier.  The
identifiers CWE--1, CWE-4294967375 and CWE-0 store 4294967295, 79 and 0. -/
theorem cwe_wraps (L : TextLib) (p : Policy) (moduleName : String)
    (first : SnykVulnerability) (tail : List SnykVulnerability) (x : String) (rest : List String)
    (v : Int) (h : atoi (replaceAll x "CWE-" "") = some v) :
    (-(2 : Int) ^ 63 ≤ v ∧ v < (2 : Int) ^ 63) ∧
    (∃ r p1, buildVulnerability L p moduleName ({ first with CWE := x :: rest } :: tail) =
        some (r, p1) ∧
      (r.CWEID : Int) = v % 2 ^ 32 ∧ r.CWEID < 2 ^ 32) ∧
    (v % 2 ^ 32 = 0 → cweIDOf (x :: rest) = cweIDOf []) ∧
    cweIDOf ["CWE--1"] = 4294967295 ∧
    cweIDOf ["CWE-4294967375"] = 79 ∧
    cweIDOf ["CWE-0"] = cweIDOf [] := by
  have hc : cweIDOf (x :: rest) = (v % 2 ^ 32).toNat := by
    simp [cweIDOf, h, toUint32]
  have hnn : (0 : Int) ≤ v % 2 ^ 32 := Int.emod_nonneg _ (by norm_num)
  have hlt : v % 2 ^ 32 < 2 ^ 32 := Int.emod_lt_of_pos _ (by norm_num)
  refine ⟨atoi_range _ v h, ⟨_, _, rfl, ?_, ?_⟩, ?_, by decide, by decide, by decide⟩
  · show ((cweIDOf (x :: rest) : Nat) : Int) = v % 2 ^ 32
    rw [hc, Int.toNat_of_nonneg hnn]
  · show cweIDOf (x :: rest) < 2 ^ 32
    rw [hc]
    omega
  · intro h0
    rw [hc, h0]
    rfl

/-- C19 at the identifier CWE--1, which parses as -1. -/
theorem cwe_wraps_witness :
    atoi (replaceAll "CWE--1" "CWE-" "") = some (-1) ∧
    ((-(2 : Int) ^ 63 ≤ -1 ∧ (-1 : Int) < (2 : Int) ^ 63) ∧
    (∃ r p1, buildVulnerability exampleLib strictPolicy "lodash"
        ({ exampleFinding "SNYK-1" "security" "lodash" ["app", "lodash"] with
            CWE := "CWE--1" :: [] } :: []) = some (r, p1) ∧
      (r.CWEID : Int) = -1 % 2 ^ 32 ∧ r.CWEID < 2 ^ 32) ∧
    ((-1 : Int) % 2 ^ 32 = 0 → cweIDOf ("CWE--1" :: []) = cweIDOf []) ∧
    cweIDOf ["CWE--1"] = 4294967295 ∧
    cweIDOf ["CWE-4294967375"] = 79 ∧
    cweIDOf ["CWE-0"] = cweIDOf []) :=
  ⟨by decide, cwe_wraps exampleLib strictPolicy "lodash" _ [] "CWE--1" [] (-1) (by decide)⟩

end VulcanSnyk
